import Mathlib

/-!
Verification of the compressed posting list subsystem
(`src/lib/segment/src/index/field_index/full_text_index/posting_list.rs`).

The development shallowly embeds the Rust source:

* `PostingList` and its operations `insert`, `remove`, `contains`, `len`
  (DocIds, i.e. `PointOffsetType = u32`, are modelled as `Nat`; no arithmetic
  other than comparisons and offset sums is performed on them, and offset sums
  stay far below `2^32`, so the embedding has no overflow to account for);
* the block codec of the external `bitpacking` crate (`BitPacker4x`,
  `BLOCK_LEN = 128`), modelled from its documented contract (frame-of-reference
  delta bit-packing at a uniform per-block bit width, block size
  `128 * bits / 8` bytes);
* `CompressedPostingList::new / contains / iter / find_chunk /
  get_chunk_size / decompress_chunk / is_in_postings_range`;
* `CompressedPostingVisitor::new / contains`.

Rust operations that can panic (slice indexing, slicing, `usize` subtraction,
the `assert!` in `get_chunk_size`) are embedded as `Option`-valued functions
returning `none` exactly on a panic.
-/

/-- `bitpacking::BitPacker4x::BLOCK_LEN`: number of DocIds per compressed
block. -/
def BLOCK_LEN : Nat := 128

/-- Least index `i` with `t ≤ xs[i]` (or `xs.length` if none). On a sorted
slice this is the insertion point reported by Rust `slice::binary_search`. -/
def lowerBound (t : Nat) : List Nat → Nat
  | [] => 0
  | x :: xs => if t ≤ x then 0 else lowerBound t xs + 1

/-- Models the Rust standard library `slice::binary_search` contract, which
the source relies on only for sorted slices: `.ok i` with `xs[i] = t` when `t`
occurs in the sorted slice, otherwise `.error i` where `i` is the insertion
point keeping the slice sorted. -/
def binarySearch (xs : List Nat) (t : Nat) : Except Nat Nat :=
  if h : lowerBound t xs < xs.length then
    if xs.get ⟨lowerBound t xs, h⟩ = t then Except.ok (lowerBound t xs)
    else Except.error (lowerBound t xs)
  else Except.error (lowerBound t xs)

/-- `binary_search(..).is_ok()`. -/
def bsOk (xs : List Nat) (t : Nat) : Bool :=
  match binarySearch xs t with
  | Except.ok _ => true
  | Except.error _ => false

/-- Mutable posting list: a growable vector of DocIds. -/
structure PostingList where
  list : List Nat
deriving DecidableEq

/-- `PostingList::new(idx)`. -/
def PostingList.new (idx : Nat) : PostingList := ⟨[idx]⟩

/-- `PostingList::insert`: binary search, and insert at the reported
insertion point when absent (`Vec::insert` shifts the tail). -/
def PostingList.insert (p : PostingList) (idx : Nat) : PostingList :=
  match binarySearch p.list idx with
  | Except.ok _ => p
  | Except.error i => ⟨p.list.take i ++ idx :: p.list.drop i⟩

/-- `PostingList::remove`: binary search, and remove at the found index when
present (`Vec::remove` closes the gap). -/
def PostingList.remove (p : PostingList) (idx : Nat) : PostingList :=
  match binarySearch p.list idx with
  | Except.ok i => ⟨p.list.take i ++ p.list.drop (i + 1)⟩
  | Except.error _ => p

/-- `PostingList::len`. -/
def PostingList.len (p : PostingList) : Nat := p.list.length

/-- `PostingList::contains`. -/
def PostingList.contains (p : PostingList) (val : Nat) : Bool := bsOk p.list val

/-- One mutation of the public mutable-posting-list API. -/
inductive Op where
  | ins : Nat → Op
  | rem : Nat → Op
deriving DecidableEq

/-- Apply one API mutation. -/
def applyOp (p : PostingList) : Op → PostingList
  | Op.ins d => p.insert d
  | Op.rem d => p.remove d

/-- The mutable posting list obtained from the empty list by a sequence of
public-API mutations. -/
def applyOps (ops : List Op) : PostingList := ops.foldl applyOp ⟨[]⟩

/-- A mutable posting list buildable through the public API. -/
def Reachable (p : PostingList) : Prop := ∃ ops : List Op, applyOps ops = p

/-! ### Block codec (external `bitpacking` crate, `BitPacker4x`)

Modelled from the documented contract of the external library primitive
(the crate is a dependency, not part of this repository): deltas between
consecutive elements (with `initial` as predecessor of the first) are packed
as a little-endian bitstream at a uniform bit width `b`, occupying exactly
`BLOCK_LEN * b / 8` bytes; `decompress_sorted` inverts `compress_sorted`. -/

/-- Number of bits needed to represent `n` (fuel-based so that it reduces). -/
def bitLenAux : Nat → Nat → Nat
  | 0, _ => 0
  | fuel + 1, n => if n = 0 then 0 else bitLenAux fuel (n / 2) + 1

/-- Number of bits needed to represent `n`. -/
def bitLen (n : Nat) : Nat := bitLenAux n n

/-- Successive differences, seeded with `initial`. -/
def deltasFrom (initial : Nat) : List Nat → List Nat
  | [] => []
  | x :: xs => (x - initial) :: deltasFrom x xs

/-- Prefix sums, seeded with `initial`: inverse of `deltasFrom` on
monotone input. -/
def fromDeltas (initial : Nat) : List Nat → List Nat
  | [] => []
  | d :: ds => (initial + d) :: fromDeltas (initial + d) ds

/-- `BitPacker4x::num_bits_sorted`: minimum uniform bit width for the deltas
of a sorted block. -/
def num_bits_sorted (initial : Nat) (blk : List Nat) : Nat :=
  (deltasFrom initial blk).foldl (fun acc d => max acc (bitLen d)) 0

/-- `BitPacker4x::compressed_block_size(b) = BLOCK_LEN * b / 8`. -/
def compressed_block_size (b : Nat) : Nat := BLOCK_LEN * b / 8

/-- Pack a list of `b`-bit deltas into one natural number, least significant
field first. -/
def packDeltas (b : Nat) : List Nat → Nat
  | [] => 0
  | d :: ds => d % 2 ^ b + 2 ^ b * packDeltas b ds

/-- Little-endian byte expansion of `n`, `k` bytes. -/
def natToBytes : Nat → Nat → List Nat
  | 0, _ => []
  | k + 1, n => n % 256 :: natToBytes k (n / 256)

/-- Value of a little-endian byte list. -/
def bytesToNat : List Nat → Nat
  | [] => 0
  | b0 :: rest => b0 + 256 * bytesToNat rest

/-- Extract `k` `b`-bit fields from a packed natural number. -/
def unpackDeltas (b : Nat) : Nat → Nat → List Nat
  | 0, _ => []
  | k + 1, n => n % 2 ^ b :: unpackDeltas b k (n / 2 ^ b)

/-- `BitPacker4x::compress_sorted`: emits exactly `compressed_block_size b`
bytes holding the bit-packed deltas of the block. -/
def compress_sorted (initial : Nat) (blk : List Nat) (b : Nat) : List Nat :=
  natToBytes (compressed_block_size b) (packDeltas b (deltasFrom initial blk))

/-- `BitPacker4x::decompress_sorted`: reconstructs the `BLOCK_LEN` block
from its bit-packed bytes. -/
def decompress_sorted (initial : Nat) (bytes : List Nat) (b : Nat) : List Nat :=
  fromDeltas initial (unpackDeltas b BLOCK_LEN (bytesToNat bytes))

/-! ### Compressed posting list -/

/-- Directory entry: first DocId of the block and byte offset of its payload
in the shared arena. -/
structure CompressedPostingChunk where
  initial : Nat
  offset : Nat
deriving DecidableEq

/-- Immutable compressed posting list: logical length, maximum DocId, byte
arena, chunk directory. -/
structure CompressedPostingList where
  len : Nat
  last_doc_id : Nat
  data : List Nat
  chunks : List CompressedPostingChunk
deriving DecidableEq

/-- Insertion sort step, preserving order. -/
def insertSorted (x : Nat) : List Nat → List Nat
  | [] => [x]
  | y :: ys => if x ≤ y then x :: y :: ys else y :: insertSorted x ys

/-- Models `sort_unstable` on a `Vec<u32>`: on a total order without payload
every correct sort produces the same (the sorted) list, so a simple insertion
sort is an exact model of the observable result. -/
def sortList : List Nat → List Nat
  | [] => []
  | x :: xs => insertSorted x (sortList xs)

/-- `slice::chunks_exact(BLOCK_LEN)` (fuel-based so that it reduces): yields
the consecutive complete `BLOCK_LEN`-element windows, dropping a trailing
partial window. -/
def chunksExactAux : Nat → List Nat → List (List Nat)
  | 0, _ => []
  | fuel + 1, xs =>
    if BLOCK_LEN ≤ xs.length then xs.take BLOCK_LEN :: chunksExactAux fuel (xs.drop BLOCK_LEN)
    else []

/-- `slice::chunks_exact(BLOCK_LEN)`. -/
def chunksExact (xs : List Nat) : List (List Nat) := chunksExactAux xs.length xs

/-- The sorted list padded with copies of its last element up to a multiple
of `BLOCK_LEN` (`CompressedPostingList::new`, lines 71-76). -/
def paddedOf (p : PostingList) : List Nat :=
  let sorted := sortList p.list
  sorted ++ List.replicate ((BLOCK_LEN - sorted.length % BLOCK_LEN) % BLOCK_LEN) (sorted.getLastD 0)

/-- The `BLOCK_LEN`-element blocks the construction compresses. -/
def blocksOf (p : PostingList) : List (List Nat) := chunksExact (paddedOf p)

/-- Byte size the codec emits for one block. -/
def blockSize (blk : List Nat) : Nat :=
  compressed_block_size (num_bits_sorted (blk.headD 0) blk)

/-- Total byte size of a list of blocks. -/
def sumSizes : List (List Nat) → Nat
  | [] => 0
  | blk :: rest => blockSize blk + sumSizes rest

/-- First pass of `CompressedPostingList::new` (lines 83-97): record
`(initial, running_offset)` per block while accumulating the arena size. -/
def buildDirectory : List (List Nat) → Nat → List CompressedPostingChunk
  | [], _ => []
  | blk :: rest, off =>
    ⟨blk.headD 0, off⟩ :: buildDirectory rest (off + blockSize blk)

/-- The final running offset of the first pass: the arena size. -/
def totalDataSize : List (List Nat) → Nat → Nat
  | [], off => off
  | blk :: rest, off => totalDataSize rest (off + blockSize blk)

/-- Checked `usize` subtraction: `none` models the underflow panic. -/
def checkedSub (a b : Nat) : Option Nat := if b ≤ a then some (a - b) else none

/-- `CompressedPostingList::get_chunk_size` (lines 182-189): byte size of
chunk `chunk_index` as the offset difference to the next chunk, or to the
arena end for the last chunk. `none` models the `assert!` /
subtraction-underflow panics. -/
def get_chunk_size (chunks : List CompressedPostingChunk) (dataLen : Nat)
    (chunk_index : Nat) : Option Nat :=
  if chunk_index < chunks.length then
    match chunks[chunk_index]?, chunks[chunk_index + 1]? with
    | some c, some c2 => checkedSub c2.offset c.offset
    | some c, none => checkedSub dataLen c.offset
    | none, _ => none
  else none

/-- Second pass of `CompressedPostingList::new` (lines 100-113): for each
block in order, re-derive the bit width from `get_chunk_size` and write the
compressed payload into its arena slot; consecutive exact-size writes at the
running offsets concatenate. A failed `get_chunk_size` is modelled as size 0
(it is proved never to occur on the offsets built by the first pass). -/
def buildData (chunks : List CompressedPostingChunk) (dataLen : Nat) :
    List (List Nat) → Nat → List Nat
  | [], _ => []
  | blk :: rest, i =>
    compress_sorted (chunks.getD i ⟨0, 0⟩).initial blk
        (((get_chunk_size chunks dataLen i).getD 0) * 8 / BLOCK_LEN)
      ++ buildData chunks dataLen rest (i + 1)

/-- `CompressedPostingList::new` (lines 63-135). The debug round-trip check of
lines 115-127 (decompress each just-compressed block and panic on mismatch) is
not part of the value computed; the theorem `decompress_chunk_new` proves the
decompressed block always equals the block that was compressed, i.e. that the
check never fires. -/
def CompressedPostingList.new (posting_list : PostingList) : CompressedPostingList :=
  if posting_list.list = [] then { len := 0, last_doc_id := 0, data := [], chunks := [] }
  else
    let blocks := blocksOf posting_list
    let chunks := buildDirectory blocks 0
    let data_size := totalDataSize blocks 0
    { len := posting_list.list.length
      last_doc_id := posting_list.list.getLastD 0
      data := buildData chunks data_size blocks 0
      chunks := chunks }

/-- `CompressedPostingList::is_in_postings_range` (lines 208-210). -/
def CompressedPostingList.is_in_postings_range (cl : CompressedPostingList) (val : Nat) : Bool :=
  decide (cl.chunks.length > 0 ∧ (cl.chunks.headD ⟨0, 0⟩).initial ≤ val ∧ val ≤ cl.last_doc_id)

/-- The candidate-chunk selection inside `find_chunk`: binary search by
`initial`; on a miss take the predecessor of the insertion point, if any. -/
def findCandidate (inits : List Nat) (t : Nat) : Option Nat :=
  match binarySearch inits t with
  | Except.ok i => some i
  | Except.error i => if 0 < i then some (i - 1) else none

/-- `CompressedPostingList::find_chunk` (lines 191-206). The binary search
runs over the suffix `chunks[start_chunk..]` and its result is returned
without re-adding `start_chunk` (exactly as in the source). The outer `none`
models the slicing panic when `start_chunk > chunks.len()`. -/
def CompressedPostingList.find_chunk (cl : CompressedPostingList) (doc_id : Nat)
    (start_chunk : Option Nat) : Option (Option Nat) :=
  let start := start_chunk.getD 0
  if start ≤ cl.chunks.length then
    some (findCandidate ((cl.chunks.drop start).map (fun c => c.initial)) doc_id)
  else none

/-- `CompressedPostingList::decompress_chunk` (lines 212-227): recover the
bit width from the chunk's byte size and decode its arena slice. `none`
models the indexing/slicing panics. -/
def CompressedPostingList.decompress_chunk (cl : CompressedPostingList)
    (chunk_index : Nat) : Option (List Nat) :=
  match cl.chunks[chunk_index]? with
  | none => none
  | some chunk =>
    match get_chunk_size cl.chunks cl.data.length chunk_index with
    | none => none
    | some chunk_size =>
      if chunk.offset + chunk_size ≤ cl.data.length then
        some (decompress_sorted chunk.initial
          ((cl.data.drop chunk.offset).take chunk_size) (chunk_size * 8 / BLOCK_LEN))
      else none

/-- `CompressedPostingList::contains` (lines 137-159): stateless single-shot
containment, directory search always starting at chunk 0. -/
def CompressedPostingList.contains (cl : CompressedPostingList) (val : Nat) : Option Bool :=
  if ¬ cl.is_in_postings_range val then some false
  else
    match cl.find_chunk val none with
    | none => none
    | some none => some false
    | some (some chunk_index) =>
      match cl.chunks[chunk_index]? with
      | none => none
      | some chunk =>
        if chunk.initial = val then some true
        else
          match cl.decompress_chunk chunk_index with
          | none => none
          | some dec => some (bsOk dec val)

/-- Fuel-based traversal of the chunks in order, concatenating the decoded
blocks (the `flat_map` of `CompressedPostingList::iter`). -/
def decompressFromAux (cl : CompressedPostingList) : Nat → Nat → Option (List Nat)
  | 0, _ => some []
  | fuel + 1, i =>
    if i < cl.chunks.length then
      match cl.decompress_chunk i with
      | none => none
      | some dec =>
        match decompressFromAux cl fuel (i + 1) with
        | none => none
        | some rest => some (dec ++ rest)
    else some []

/-- `CompressedPostingList::iter` (lines 171-180): decode every chunk in
order and truncate to `len` elements. -/
def CompressedPostingList.iter (cl : CompressedPostingList) : Option (List Nat) :=
  match decompressFromAux cl cl.chunks.length 0 with
  | none => none
  | some all => some (all.take cl.len)

/-! ### Visitor -/

/-- `CompressedPostingVisitor` (lines 230-237): reference to the compressed
list, scratch buffer of `BLOCK_LEN` decoded DocIds, cached chunk index.
(The `last_checked` monotonicity witness is `#[cfg(test)]`-only and absent in
release builds, so it is not part of the state.) -/
structure CompressedPostingVisitor where
  postings : CompressedPostingList
  decompressed_chunk : List Nat
  decompressed_chunk_idx : Option Nat
deriving DecidableEq

/-- `CompressedPostingVisitor::new` (lines 240-249). -/
def CompressedPostingVisitor.new (postings : CompressedPostingList) : CompressedPostingVisitor :=
  { postings
    decompressed_chunk := List.replicate BLOCK_LEN 0
    decompressed_chunk_idx := none }

/-- The slow path of `CompressedPostingVisitor::contains` (lines 284-302):
directory search starting at the cached chunk index, then decode the
candidate chunk and search it, caching the new chunk index. -/
def visitorAdvance (v : CompressedPostingVisitor) (val : Nat) :
    Option (CompressedPostingVisitor × Bool) :=
  match v.postings.find_chunk val v.decompressed_chunk_idx with
  | none => none
  | some none => some (v, false)
  | some (some chunk_index) =>
    match v.postings.chunks[chunk_index]? with
    | none => none
    | some chunk =>
      if chunk.initial = val then some (v, true)
      else
        match v.postings.decompress_chunk chunk_index with
        | none => none
        | some dec =>
          some ({ v with decompressed_chunk := dec, decompressed_chunk_idx := some chunk_index },
            bsOk dec val)

/-- `CompressedPostingVisitor::contains` (lines 251-302), release semantics
(the monotonicity `assert!` is `#[cfg(test)]`-only): range gate, then the
in-block fast path against the last element of the scratch buffer, falling
through to `visitorAdvance`. Returns the updated visitor together with the
answer; `none` models a panic. -/
def CompressedPostingVisitor.contains (v : CompressedPostingVisitor) (val : Nat) :
    Option (CompressedPostingVisitor × Bool) :=
  if ¬ v.postings.is_in_postings_range val then some (v, false)
  else
    match v.decompressed_chunk_idx with
    | some _ =>
      if val < v.decompressed_chunk.getD (BLOCK_LEN - 1) 0 then
        some (v, bsOk v.decompressed_chunk val)
      else if val = v.decompressed_chunk.getD (BLOCK_LEN - 1) 0 then some (v, true)
      else visitorAdvance v val
    | none => visitorAdvance v val

/-- Feed a probe sequence through a visitor, threading its state. -/
def runVisitorAux : CompressedPostingVisitor → List Nat → Option (List Bool)
  | _, [] => some []
  | v, x :: xs =>
    match v.contains x with
    | none => none
    | some (v2, b) =>
      match runVisitorAux v2 xs with
      | none => none
      | some bs => some (b :: bs)

/-- Feed a probe sequence through a fresh visitor over `cl`. -/
def runVisitor (cl : CompressedPostingList) (probes : List Nat) : Option (List Bool) :=
  runVisitorAux (CompressedPostingVisitor.new cl) probes

/-! ### Helper notions used by the verification -/

/-- Concatenation of a list of blocks. -/
def concatBlocks : List (List Nat) → List Nat
  | [] => []
  | blk :: rest => blk ++ concatBlocks rest

/-- The bytes the codec emits for one block during construction. -/
def encBlock (blk : List Nat) : List Nat :=
  compress_sorted (blk.headD 0) blk (num_bits_sorted (blk.headD 0) blk)

/-- Well-formedness of a visitor state over `CompressedPostingList.new p`:
the cached chunk index, when present, is a valid directory index. -/
def VisitorWF (p : PostingList) (v : CompressedPostingVisitor) : Prop :=
  v.postings = CompressedPostingList.new p ∧
    ∀ i, v.decompressed_chunk_idx = some i → i < v.postings.chunks.length

/-! ## Lemmas about `lowerBound` and `binarySearch` -/

theorem lowerBound_le_length (t : Nat) (xs : List Nat) : lowerBound t xs ≤ xs.length := by
  induction xs with
  | nil => simp [lowerBound]
  | cons x xs ih =>
    simp only [lowerBound, List.length_cons]
    split
    · omega
    · omega

theorem le_of_getElem?_lowerBound {t : Nat} {xs : List Nat} {x : Nat}
    (h : xs[lowerBound t xs]? = some x) : t ≤ x := by
  induction xs with
  | nil => simp at h
  | cons y ys ih =>
    by_cases hty : t ≤ y
    · rw [lowerBound, if_pos hty] at h
      simp at h
      omega
    · rw [lowerBound, if_neg hty, List.getElem?_cons_succ] at h
      exact ih h

theorem lt_of_getElem?_lt_lowerBound {t : Nat} {xs : List Nat} {j x : Nat}
    (hj : j < lowerBound t xs) (h : xs[j]? = some x) : x < t := by
  induction xs generalizing j with
  | nil => simp [lowerBound] at hj
  | cons y ys ih =>
    by_cases hty : t ≤ y
    · rw [lowerBound, if_pos hty] at hj
      omega
    · rw [lowerBound, if_neg hty] at hj
      cases j with
      | zero =>
        simp at h
        omega
      | succ j =>
        rw [List.getElem?_cons_succ] at h
        exact ih (by omega) h

theorem getElem?_lowerBound_of_mem {t : Nat} {xs : List Nat}
    (hs : List.Pairwise (· ≤ ·) xs) (hm : t ∈ xs) : xs[lowerBound t xs]? = some t := by
  obtain ⟨⟨j, hjlen⟩, hj⟩ := List.mem_iff_get.mp hm
  simp only [List.get_eq_getElem] at hj
  have hj' : xs[j]? = some t := by rw [List.getElem?_eq_getElem hjlen, hj]
  have hlb_le : lowerBound t xs ≤ j := by
    by_contra hc
    push_neg at hc
    exact absurd (lt_of_getElem?_lt_lowerBound hc hj') (lt_irrefl t)
  have hlb_lt : lowerBound t xs < xs.length := lt_of_le_of_lt hlb_le hjlen
  have hsome : xs[lowerBound t xs]? = some (xs.get ⟨lowerBound t xs, hlb_lt⟩) := by
    rw [List.getElem?_eq_getElem hlb_lt]
    simp

  have h1 : t ≤ xs.get ⟨lowerBound t xs, hlb_lt⟩ := le_of_getElem?_lowerBound hsome
  have h2 : xs.get ⟨lowerBound t xs, hlb_lt⟩ ≤ t := by
    rcases eq_or_lt_of_le hlb_le with heq | hlt
    · simp [List.get_eq_getElem, heq, hj]
    · have := List.pairwise_iff_get.mp hs ⟨lowerBound t xs, hlb_lt⟩ ⟨j, hjlen⟩ hlt
      simp only [List.get_eq_getElem] at this ⊢
      omega
  rw [hsome]
  exact congrArg some (le_antisymm h2 h1)

theorem binarySearch_ok_spec {xs : List Nat} {t i : Nat} (h : binarySearch xs t = Except.ok i) :
    i = lowerBound t xs ∧ xs[i]? = some t := by
  unfold binarySearch at h
  split at h
  · split at h
    · rename_i hlt heq
      simp only [Except.ok.injEq] at h
      subst h
      refine ⟨rfl, ?_⟩
      rw [List.getElem?_eq_getElem hlt]
      simpa using heq
    · simp at h
  · simp at h

theorem binarySearch_error_spec {xs : List Nat} {t i : Nat}
    (h : binarySearch xs t = Except.error i) :
    i = lowerBound t xs ∧ ∀ x, xs[i]? = some x → t ≤ x ∧ x ≠ t := by
  unfold binarySearch at h
  split at h
  · split at h
    · simp at h
    · rename_i hlt hne
      simp only [Except.error.injEq] at h
      subst h
      refine ⟨rfl, fun x hx => ?_⟩
      have hget : xs[lowerBound t xs]? = some (xs.get ⟨lowerBound t xs, hlt⟩) := by
        rw [List.getElem?_eq_getElem hlt]; simp
      rw [hget] at hx
      have hx' : xs.get ⟨lowerBound t xs, hlt⟩ = x := by simpa using hx
      refine ⟨hx' ▸ le_of_getElem?_lowerBound hget, ?_⟩
      rw [← hx']
      exact hne
  · rename_i hge
    simp only [Except.error.injEq] at h
    subst h
    refine ⟨rfl, fun x hx => ?_⟩
    rw [List.getElem?_eq_none (by omega)] at hx
    simp at hx

theorem binarySearch_of_mem {xs : List Nat} {t : Nat}
    (hs : List.Pairwise (· ≤ ·) xs) (hm : t ∈ xs) :
    binarySearch xs t = Except.ok (lowerBound t xs) := by
  have hx := getElem?_lowerBound_of_mem hs hm
  have hlt : lowerBound t xs < xs.length := by
    rcases List.getElem?_eq_some.mp hx with ⟨hlt, _⟩
    exact hlt
  have hget : xs.get ⟨lowerBound t xs, hlt⟩ = t := by
    rcases List.getElem?_eq_some.mp hx with ⟨_, hg⟩
    simpa using hg
  unfold binarySearch
  rw [dif_pos hlt, if_pos hget]

theorem bsOk_iff_mem {xs : List Nat} {t : Nat} (hs : List.Pairwise (· ≤ ·) xs) :
    bsOk xs t = true ↔ t ∈ xs := by
  constructor
  · intro h
    unfold bsOk at h
    cases hb : binarySearch xs t with
    | ok i =>
      have := (binarySearch_ok_spec hb).2
      rcases List.getElem?_eq_some.mp this with ⟨hlt, hg⟩
      exact hg ▸ List.getElem_mem hlt
    | error i => rw [hb] at h; simp at h
  · intro hm
    unfold bsOk
    rw [binarySearch_of_mem hs hm]

/-! ## Sortedness invariant of the mutable posting list -/

theorem mem_insertSorted {x z : Nat} {xs : List Nat} :
    z ∈ insertSorted x xs ↔ z = x ∨ z ∈ xs := by
  induction xs with
  | nil => simp [insertSorted]
  | cons y ys ih =>
    simp only [insertSorted]
    split
    · simp [or_comm, or_left_comm]
    · simp only [List.mem_cons, ih]
      tauto

theorem insertSorted_pairwise_le {x : Nat} {xs : List Nat}
    (hs : List.Pairwise (· ≤ ·) xs) : List.Pairwise (· ≤ ·) (insertSorted x xs) := by
  induction xs with
  | nil => simp [insertSorted]
  | cons y ys ih =>
    rcases List.pairwise_cons.mp hs with ⟨hy, hys⟩
    simp only [insertSorted]
    split
    · rename_i hxy
      refine List.pairwise_cons.mpr ⟨?_, hs⟩
      intro z hz
      rcases List.mem_cons.mp hz with rfl | hz
      · exact hxy
      · exact le_trans hxy (hy z hz)
    · rename_i hxy
      refine List.pairwise_cons.mpr ⟨?_, ih hys⟩
      intro z hz
      rcases mem_insertSorted.mp hz with rfl | hz
      · omega
      · exact hy z hz

theorem insertSorted_pairwise_lt {x : Nat} {xs : List Nat}
    (hs : List.Pairwise (· < ·) xs) (hx : x ∉ xs) :
    List.Pairwise (· < ·) (insertSorted x xs) := by
  induction xs with
  | nil => simp [insertSorted]
  | cons y ys ih =>
    rcases List.pairwise_cons.mp hs with ⟨hy, hys⟩
    have hxy' : x ≠ y := fun h => hx (h ▸ List.mem_cons_self y ys)
    simp only [insertSorted]
    split
    · rename_i hxy
      refine List.pairwise_cons.mpr ⟨?_, hs⟩
      intro z hz
      rcases List.mem_cons.mp hz with rfl | hz
      · omega
      · have := hy z hz
        omega
    · rename_i hxy
      refine List.pairwise_cons.mpr ⟨?_, ih hys (fun h => hx (List.mem_cons_of_mem y h))⟩
      intro z hz
      rcases mem_insertSorted.mp hz with rfl | hz
      · omega
      · exact hy z hz

theorem sortList_pairwise_le (xs : List Nat) : List.Pairwise (· ≤ ·) (sortList xs) := by
  induction xs with
  | nil => simp [sortList]
  | cons x xs ih => exact insertSorted_pairwise_le ih

theorem mem_sortList {z : Nat} {xs : List Nat} : z ∈ sortList xs ↔ z ∈ xs := by
  induction xs with
  | nil => simp [sortList]
  | cons x xs ih =>
    simp only [sortList, mem_insertSorted, ih, List.mem_cons]

theorem insertSorted_of_le (x : Nat) (xs : List Nat) (h : ∀ y ∈ xs, x ≤ y) :
    insertSorted x xs = x :: xs := by
  cases xs with
  | nil => rfl
  | cons y ys =>
    have := h y (List.mem_cons_self y ys)
    simp [insertSorted, this]

theorem sortList_eq_self {xs : List Nat} (hs : List.Pairwise (· ≤ ·) xs) : sortList xs = xs := by
  induction xs with
  | nil => rfl
  | cons x xs ih =>
    rcases List.pairwise_cons.mp hs with ⟨hx, hxs⟩
    rw [sortList, ih hxs, insertSorted_of_le x xs hx]

theorem lowerBound_insert_eq {t : Nat} {xs : List Nat} :
    xs.take (lowerBound t xs) ++ t :: xs.drop (lowerBound t xs) = insertSorted t xs := by
  induction xs with
  | nil => simp [lowerBound, insertSorted]
  | cons y ys ih =>
    by_cases hty : t ≤ y
    · simp [lowerBound, insertSorted, hty]
    · simp only [lowerBound, if_neg hty, insertSorted, List.take_succ_cons,
        List.drop_succ_cons, List.cons_append]
      rw [ih]

theorem insert_sorted {p : PostingList} (hs : List.Pairwise (· < ·) p.list) (d : Nat) :
    List.Pairwise (· < ·) (p.insert d).list := by
  unfold PostingList.insert
  cases hb : binarySearch p.list d with
  | ok i => exact hs
  | error i =>
    rcases binarySearch_error_spec hb with ⟨rfl, _⟩
    simp only
    rw [lowerBound_insert_eq]
    refine insertSorted_pairwise_lt hs ?_
    intro hm
    have := bsOk_iff_mem (hs.imp (fun h => le_of_lt h)) |>.mpr hm
    unfold bsOk at this
    rw [hb] at this
    simp at this

theorem remove_sorted {p : PostingList} (hs : List.Pairwise (· < ·) p.list) (d : Nat) :
    List.Pairwise (· < ·) (p.remove d).list := by
  unfold PostingList.remove
  cases hb : binarySearch p.list d with
  | ok i =>
    rcases binarySearch_ok_spec hb with ⟨_, hsome⟩
    rcases List.getElem?_eq_some.mp hsome with ⟨hlt, _⟩
    simp only
    have hsub : (p.list.take i ++ p.list.drop (i + 1)).Sublist p.list := by
      conv_rhs => rw [← List.take_append_drop i p.list]
      refine List.Sublist.append_left ?_ _
      rw [List.drop_eq_getElem_cons hlt]
      exact List.sublist_cons_self _ _
    exact List.Pairwise.sublist hsub hs
  | error i => exact hs

theorem applyOp_sorted {p : PostingList} (hs : List.Pairwise (· < ·) p.list) (op : Op) :
    List.Pairwise (· < ·) (applyOp p op).list := by
  cases op with
  | ins d => exact insert_sorted hs d
  | rem d => exact remove_sorted hs d

theorem foldl_applyOp_sorted (ops : List Op) :
    ∀ p : PostingList, List.Pairwise (· < ·) p.list →
      List.Pairwise (· < ·) (ops.foldl applyOp p).list := by
  induction ops with
  | nil => intro p hp; exact hp
  | cons op ops ih =>
    intro p hp
    exact ih (applyOp p op) (applyOp_sorted hp op)

theorem applyOps_sorted (ops : List Op) : List.Pairwise (· < ·) (applyOps ops).list :=
  foldl_applyOp_sorted ops ⟨[]⟩ (List.Pairwise.nil)

theorem reachable_sorted {p : PostingList} (h : Reachable p) :
    List.Pairwise (· < ·) p.list := by
  rcases h with ⟨ops, rfl⟩
  exact applyOps_sorted ops

theorem insert_of_contains {p : PostingList} {d : Nat} (h : p.contains d = true) :
    p.insert d = p := by
  unfold PostingList.contains bsOk at h
  unfold PostingList.insert
  cases hb : binarySearch p.list d with
  | ok i => rfl
  | error i => rw [hb] at h; simp at h

theorem remove_of_not_contains {p : PostingList} {d : Nat} (h : p.contains d = false) :
    p.remove d = p := by
  unfold PostingList.contains bsOk at h
  unfold PostingList.remove
  cases hb : binarySearch p.list d with
  | ok i => rw [hb] at h; simp at h
  | error i => rfl

/-! ## Codec round trip -/

theorem bitLenAux_spec : ∀ fuel n : Nat, n ≤ fuel → n < 2 ^ bitLenAux fuel n := by
  intro fuel
  induction fuel with
  | zero =>
    intro n hn
    have : n = 0 := by omega
    subst this
    simp [bitLenAux]
  | succ fuel ih =>
    intro n hn
    by_cases h0 : n = 0
    · subst h0; simp [bitLenAux]
    · rw [bitLenAux, if_neg h0]
      have hrec : n / 2 < 2 ^ bitLenAux fuel (n / 2) := ih (n / 2) (by omega)
      have h2 : 2 ^ (bitLenAux fuel (n / 2) + 1) = 2 * 2 ^ bitLenAux fuel (n / 2) := by
        rw [pow_succ]; ring
      omega

theorem bitLen_lt (n : Nat) : n < 2 ^ bitLen n := bitLenAux_spec n n (le_refl n)

theorem le_foldl_max_bitLen (ds : List Nat) : ∀ acc : Nat,
    acc ≤ ds.foldl (fun a d => max a (bitLen d)) acc := by
  induction ds with
  | nil => intro acc; simp
  | cons d ds ih =>
    intro acc
    calc acc ≤ max acc (bitLen d) := le_max_left _ _
    _ ≤ ds.foldl (fun a d => max a (bitLen d)) (max acc (bitLen d)) := ih _

theorem bitLen_le_foldl_max {d : Nat} {ds : List Nat} (hm : d ∈ ds) : ∀ acc : Nat,
    bitLen d ≤ ds.foldl (fun a d => max a (bitLen d)) acc := by
  induction ds with
  | nil => simp at hm
  | cons x xs ih =>
    intro acc
    rcases List.mem_cons.mp hm with rfl | hm
    · calc bitLen d ≤ max acc (bitLen d) := le_max_right _ _
      _ ≤ xs.foldl (fun a d => max a (bitLen d)) (max acc (bitLen d)) := le_foldl_max_bitLen _ _
    · exact ih hm _

theorem delta_lt_pow {initial b : Nat} {blk : List Nat}
    (hb : num_bits_sorted initial blk ≤ b) {d : Nat} (hd : d ∈ deltasFrom initial blk) :
    d < 2 ^ b := by
  have h1 : bitLen d ≤ num_bits_sorted initial blk := bitLen_le_foldl_max hd 0
  calc d < 2 ^ bitLen d := bitLen_lt d
  _ ≤ 2 ^ b := Nat.pow_le_pow_right (by omega) (le_trans h1 hb)

theorem deltasFrom_length (blk : List Nat) : ∀ initial : Nat,
    (deltasFrom initial blk).length = blk.length := by
  induction blk with
  | nil => intro initial; rfl
  | cons x xs ih => intro initial; simp [deltasFrom, ih]

theorem fromDeltas_deltasFrom {blk : List Nat} : ∀ {initial : Nat},
    List.Pairwise (· ≤ ·) (initial :: blk) →
    fromDeltas initial (deltasFrom initial blk) = blk := by
  induction blk with
  | nil => intro initial _; rfl
  | cons x xs ih =>
    intro initial hs
    rcases List.pairwise_cons.mp hs with ⟨hinit, hxs⟩
    have hix : initial ≤ x := hinit x (List.mem_cons_self x xs)
    simp only [deltasFrom, fromDeltas, Nat.add_sub_cancel' hix]
    rw [ih hxs]

theorem packDeltas_lt (b : Nat) (ds : List Nat) : packDeltas b ds < 2 ^ (b * ds.length) := by
  induction ds with
  | nil => simp [packDeltas]
  | cons d ds ih =>
    simp only [packDeltas, List.length_cons]
    have hmod : d % 2 ^ b < 2 ^ b := Nat.mod_lt _ (Nat.pos_pow_of_pos b (by omega))
    have hpow : 2 ^ (b * (ds.length + 1)) = 2 ^ b * 2 ^ (b * ds.length) := by
      rw [← pow_add]; ring_nf
    calc d % 2 ^ b + 2 ^ b * packDeltas b ds
        < 2 ^ b + 2 ^ b * packDeltas b ds := by omega
    _ = 2 ^ b * (packDeltas b ds + 1) := by ring
    _ ≤ 2 ^ b * 2 ^ (b * ds.length) := by
        have : packDeltas b ds + 1 ≤ 2 ^ (b * ds.length) := ih
        exact Nat.mul_le_mul_left _ this
    _ = 2 ^ (b * (ds.length + 1)) := hpow.symm

theorem natToBytes_length : ∀ k n : Nat, (natToBytes k n).length = k := by
  intro k
  induction k with
  | zero => intro n; rfl
  | succ k ih => intro n; simp [natToBytes, ih]

theorem bytesToNat_natToBytes : ∀ k n : Nat, n < 256 ^ k → bytesToNat (natToBytes k n) = n := by
  intro k
  induction k with
  | zero =>
    intro n hn
    simp only [pow_zero] at hn
    have : n = 0 := by omega
    subst this
    rfl
  | succ k ih =>
    intro n hn
    have hdiv : n / 256 < 256 ^ k := by
      have h1 : 256 ^ (k + 1) = 256 * 256 ^ k := by rw [pow_succ]; ring
      rw [h1] at hn
      exact Nat.div_lt_of_lt_mul hn
    simp only [natToBytes, bytesToNat, ih (n / 256) hdiv]
    omega

theorem unpackDeltas_packDeltas {b : Nat} : ∀ ds : List Nat, (∀ d ∈ ds, d < 2 ^ b) →
    unpackDeltas b ds.length (packDeltas b ds) = ds := by
  intro ds
  induction ds with
  | nil => intro _; rfl
  | cons d ds ih =>
    intro hd
    have hdlt : d < 2 ^ b := hd d (List.mem_cons_self d ds)
    have hpos : 0 < 2 ^ b := Nat.pos_pow_of_pos b (by omega)
    have hmod : d % 2 ^ b = d := Nat.mod_eq_of_lt hdlt
    simp only [packDeltas, List.length_cons, unpackDeltas, hmod]
    have h1 : (d + 2 ^ b * packDeltas b ds) % 2 ^ b = d := by
      rw [Nat.add_mul_mod_self_left, hmod]
    have h2 : (d + 2 ^ b * packDeltas b ds) / 2 ^ b = packDeltas b ds := by
      rw [Nat.add_mul_div_left _ _ hpos, Nat.div_eq_of_lt hdlt, Nat.zero_add]
    rw [h1, h2, ih (fun x hx => hd x (List.mem_cons_of_mem d hx))]

theorem compress_sorted_length (initial : Nat) (blk : List Nat) (b : Nat) :
    (compress_sorted initial blk b).length = compressed_block_size b :=
  natToBytes_length _ _

theorem compressed_block_size_eq (b : Nat) : compressed_block_size b = 16 * b := by
  unfold compressed_block_size BLOCK_LEN
  omega

theorem compressed_block_size_recover (b : Nat) :
    compressed_block_size b * 8 / BLOCK_LEN = b := by
  rw [compressed_block_size_eq]
  unfold BLOCK_LEN
  omega

theorem decompress_compress {initial b : Nat} {blk : List Nat}
    (hlen : blk.length = BLOCK_LEN)
    (hs : List.Pairwise (· ≤ ·) (initial :: blk))
    (hb : num_bits_sorted initial blk ≤ b) :
    decompress_sorted initial (compress_sorted initial blk b) b = blk := by
  unfold decompress_sorted compress_sorted
  have hdl : (deltasFrom initial blk).length = BLOCK_LEN := by
    rw [deltasFrom_length, hlen]
  have hpk : packDeltas b (deltasFrom initial blk) < 256 ^ compressed_block_size b := by
    have h1 : packDeltas b (deltasFrom initial blk) < 2 ^ (b * BLOCK_LEN) := by
      have := packDeltas_lt b (deltasFrom initial blk)
      rwa [hdl] at this
    have h2 : (256 : Nat) ^ compressed_block_size b = 2 ^ (b * BLOCK_LEN) := by
      rw [compressed_block_size_eq]
      have h256 : (256 : Nat) = 2 ^ 8 := by norm_num
      rw [h256, ← pow_mul]
      congr 1
      unfold BLOCK_LEN
      ring
    omega
  rw [bytesToNat_natToBytes _ _ hpk, ← hdl,
    unpackDeltas_packDeltas (deltasFrom initial blk) (fun d hd => delta_lt_pow hb hd)]
  exact fromDeltas_deltasFrom hs

/-! ## Blocks and padding -/

theorem chunksExactAux_length : ∀ (fuel : Nat) (xs : List Nat), xs.length ≤ fuel →
    BLOCK_LEN ∣ xs.length → (chunksExactAux fuel xs).length = xs.length / BLOCK_LEN := by
  intro fuel
  induction fuel with
  | zero =>
    intro xs hle _
    have h0 : xs.length = 0 := by omega
    simp [chunksExactAux, h0]
  | succ fuel ih =>
    intro xs hle hdvd
    by_cases hb : BLOCK_LEN ≤ xs.length
    · rw [chunksExactAux, if_pos hb]
      simp only [List.length_cons]
      have hdl : (xs.drop BLOCK_LEN).length = xs.length - BLOCK_LEN := by simp
      have hle2 : (xs.drop BLOCK_LEN).length ≤ fuel := by
        rw [hdl]; simp only [BLOCK_LEN] at hb ⊢; omega
      have hdvd2 : BLOCK_LEN ∣ (xs.drop BLOCK_LEN).length := by
        rw [hdl]; exact Nat.dvd_sub' hdvd (dvd_refl _)
      rw [ih _ hle2 hdvd2, hdl]
      simp only [BLOCK_LEN] at hb ⊢
      omega
    · rw [chunksExactAux, if_neg hb]
      rcases hdvd with ⟨c, hc⟩
      have h0 : xs.length = 0 := by
        simp only [BLOCK_LEN] at hb hc
        omega
      simp [h0]

theorem chunksExactAux_concat : ∀ (fuel : Nat) (xs : List Nat), xs.length ≤ fuel →
    BLOCK_LEN ∣ xs.length → concatBlocks (chunksExactAux fuel xs) = xs := by
  intro fuel
  induction fuel with
  | zero =>
    intro xs hle _
    have h0 : xs.length = 0 := by omega
    rw [List.length_eq_zero.mp h0]
    rfl
  | succ fuel ih =>
    intro xs hle hdvd
    by_cases hb : BLOCK_LEN ≤ xs.length
    · rw [chunksExactAux, if_pos hb]
      have hdl : (xs.drop BLOCK_LEN).length = xs.length - BLOCK_LEN := by simp
      have hle2 : (xs.drop BLOCK_LEN).length ≤ fuel := by
        rw [hdl]; simp only [BLOCK_LEN] at hb ⊢; omega
      have hdvd2 : BLOCK_LEN ∣ (xs.drop BLOCK_LEN).length := by
        rw [hdl]; exact Nat.dvd_sub' hdvd (dvd_refl _)
      rw [concatBlocks, ih _ hle2 hdvd2, List.take_append_drop]
    · rw [chunksExactAux, if_neg hb]
      rcases hdvd with ⟨c, hc⟩
      have h0 : xs.length = 0 := by
        simp only [BLOCK_LEN] at hb hc
        omega
      rw [List.length_eq_zero.mp h0]
      rfl

theorem chunksExactAux_getD : ∀ (fuel : Nat) (xs : List Nat) (i : Nat), xs.length ≤ fuel →
    i < (chunksExactAux fuel xs).length →
    (chunksExactAux fuel xs).getD i [] = (xs.drop (BLOCK_LEN * i)).take BLOCK_LEN := by
  intro fuel
  induction fuel with
  | zero =>
    intro xs i _ hi
    simp [chunksExactAux] at hi
  | succ fuel ih =>
    intro xs i hle hi
    by_cases hb : BLOCK_LEN ≤ xs.length
    · rw [chunksExactAux, if_pos hb] at hi ⊢
      cases i with
      | zero => simp
      | succ i =>
        simp only [List.length_cons] at hi
        have hle2 : (xs.drop BLOCK_LEN).length ≤ fuel := by
          simp only [List.length_drop, BLOCK_LEN] at hb ⊢
          omega
        simp only [List.getD_cons_succ]
        rw [ih _ i hle2 (by omega), List.drop_drop]
        congr 2
        ring
    · rw [chunksExactAux, if_neg hb] at hi
      simp at hi

theorem chunksExactAux_mem_length : ∀ (fuel : Nat) (xs blk : List Nat),
    blk ∈ chunksExactAux fuel xs → blk.length = BLOCK_LEN := by
  intro fuel
  induction fuel with
  | zero => intro xs blk h; simp [chunksExactAux] at h
  | succ fuel ih =>
    intro xs blk h
    by_cases hb : BLOCK_LEN ≤ xs.length
    · rw [chunksExactAux, if_pos hb] at h
      rcases List.mem_cons.mp h with rfl | h
      · rw [List.length_take]
        omega
      · exact ih _ _ h
    · rw [chunksExactAux, if_neg hb] at h
      simp at h

theorem chunksExactAux_mem_pairwise {R : Nat → Nat → Prop} :
    ∀ (fuel : Nat) (xs blk : List Nat), List.Pairwise R xs →
    blk ∈ chunksExactAux fuel xs → List.Pairwise R blk := by
  intro fuel
  induction fuel with
  | zero => intro xs blk _ h; simp [chunksExactAux] at h
  | succ fuel ih =>
    intro xs blk hs h
    by_cases hb : BLOCK_LEN ≤ xs.length
    · rw [chunksExactAux, if_pos hb] at h
      rcases List.mem_cons.mp h with rfl | h
      · exact List.Pairwise.sublist (List.take_sublist _ _) hs
      · exact ih _ _ (List.Pairwise.sublist (List.drop_sublist _ _) hs) h
    · rw [chunksExactAux, if_neg hb] at h
      simp at h

theorem chunksExact_length {xs : List Nat} (hdvd : BLOCK_LEN ∣ xs.length) :
    (chunksExact xs).length = xs.length / BLOCK_LEN :=
  chunksExactAux_length _ _ (le_refl _) hdvd

theorem chunksExact_concat {xs : List Nat} (hdvd : BLOCK_LEN ∣ xs.length) :
    concatBlocks (chunksExact xs) = xs :=
  chunksExactAux_concat _ _ (le_refl _) hdvd

theorem chunksExact_getD {xs : List Nat} {i : Nat} (hi : i < (chunksExact xs).length) :
    (chunksExact xs).getD i [] = (xs.drop (BLOCK_LEN * i)).take BLOCK_LEN :=
  chunksExactAux_getD _ _ _ (le_refl _) hi

theorem chunksExact_mem_length {xs blk : List Nat} (h : blk ∈ chunksExact xs) :
    blk.length = BLOCK_LEN :=
  chunksExactAux_mem_length _ _ _ h

theorem chunksExact_mem_pairwise {R : Nat → Nat → Prop} {xs blk : List Nat}
    (hs : List.Pairwise R xs) (h : blk ∈ chunksExact xs) : List.Pairwise R blk :=
  chunksExactAux_mem_pairwise _ _ _ hs h

theorem insertSorted_length (x : Nat) (xs : List Nat) :
    (insertSorted x xs).length = xs.length + 1 := by
  induction xs with
  | nil => rfl
  | cons y ys ih =>
    simp only [insertSorted]
    split
    · simp
    · simp [ih]

theorem sortList_length (xs : List Nat) : (sortList xs).length = xs.length := by
  induction xs with
  | nil => rfl
  | cons x xs ih => simp [sortList, insertSorted_length, ih]

theorem getLastD_mem {l : List Nat} (h : l ≠ []) : l.getLastD 0 ∈ l := by
  rw [List.getLastD_eq_getLast?, List.getLast?_eq_getLast l h]
  exact List.getLast_mem h

theorem le_getLastD_of_pairwise {l : List Nat} (hs : List.Pairwise (· ≤ ·) l)
    {a : Nat} (ha : a ∈ l) : a ≤ l.getLastD 0 := by
  obtain ⟨⟨j, hj⟩, hget⟩ := List.mem_iff_get.mp ha
  have hne : l ≠ [] := List.ne_nil_of_mem ha
  have hlen : 0 < l.length := List.length_pos.mpr hne
  have hlast : l.getLastD 0 = l.get ⟨l.length - 1, by omega⟩ := by
    rw [List.getLastD_eq_getLast?, List.getLast?_eq_getElem?,
      List.getElem?_eq_getElem (by omega : l.length - 1 < l.length)]
    simp only [Option.getD_some, List.get_eq_getElem]
  rw [hlast, ← hget]
  rcases Nat.lt_or_ge j (l.length - 1) with hlt | hge
  · exact List.pairwise_iff_get.mp hs ⟨j, hj⟩ ⟨l.length - 1, by omega⟩ hlt
  · have hje : j = l.length - 1 := by omega
    exact le_of_eq (congrArg l.get (Fin.ext hje))

theorem paddedOf_length (p : PostingList) :
    (paddedOf p).length =
      p.list.length + (BLOCK_LEN - p.list.length % BLOCK_LEN) % BLOCK_LEN := by
  simp [paddedOf, sortList_length]

theorem paddedOf_length_dvd (p : PostingList) : BLOCK_LEN ∣ (paddedOf p).length := by
  rw [paddedOf_length]
  simp only [BLOCK_LEN]
  omega

theorem paddedOf_pairwise_le (p : PostingList) : List.Pairwise (· ≤ ·) (paddedOf p) := by
  unfold paddedOf
  refine List.pairwise_append.mpr ⟨sortList_pairwise_le _, ?_, ?_⟩
  · exact List.pairwise_replicate.mpr (Or.inr (le_refl _))
  · intro a ha b hb
    rw [List.eq_of_mem_replicate hb]
    exact le_getLastD_of_pairwise (sortList_pairwise_le _) ha

/-! ## Directory and arena construction -/

theorem buildDirectory_length : ∀ (blocks : List (List Nat)) (off : Nat),
    (buildDirectory blocks off).length = blocks.length := by
  intro blocks
  induction blocks with
  | nil => intro off; rfl
  | cons blk rest ih => intro off; simp [buildDirectory, ih]

theorem buildDirectory_getElem? : ∀ (blocks : List (List Nat)) (off i : Nat),
    i < blocks.length →
    (buildDirectory blocks off)[i]? =
      some ⟨(blocks.getD i []).headD 0, off + sumSizes (blocks.take i)⟩ := by
  intro blocks
  induction blocks with
  | nil => intro off i hi; simp at hi
  | cons blk rest ih =>
    intro off i hi
    cases i with
    | zero => simp [buildDirectory, sumSizes]
    | succ i =>
      simp only [buildDirectory, List.getElem?_cons_succ, List.getD_cons_succ,
        List.take_succ_cons, sumSizes]
      rw [ih _ i (by simpa using Nat.lt_of_succ_lt_succ hi)]
      congr 2
      omega

theorem sumSizes_take_succ : ∀ (blocks : List (List Nat)) (i : Nat), i < blocks.length →
    sumSizes (blocks.take (i + 1)) = sumSizes (blocks.take i) + blockSize (blocks.getD i []) := by
  intro blocks
  induction blocks with
  | nil => intro i hi; simp at hi
  | cons blk rest ih =>
    intro i hi
    cases i with
    | zero => simp [sumSizes]
    | succ i =>
      simp only [List.take_succ_cons, sumSizes, List.getD_cons_succ]
      rw [ih i (by simpa using Nat.lt_of_succ_lt_succ hi)]
      omega

theorem sumSizes_take_le : ∀ (blocks : List (List Nat)) (i : Nat),
    sumSizes (blocks.take i) ≤ sumSizes blocks := by
  intro blocks
  induction blocks with
  | nil => intro i; simp
  | cons blk rest ih =>
    intro i
    cases i with
    | zero => simp [sumSizes]
    | succ i =>
      simp only [List.take_succ_cons, sumSizes]
      have := ih i
      omega

theorem totalDataSize_eq : ∀ (blocks : List (List Nat)) (off : Nat),
    totalDataSize blocks off = off + sumSizes blocks := by
  intro blocks
  induction blocks with
  | nil => intro off; simp [totalDataSize, sumSizes]
  | cons blk rest ih =>
    intro off
    simp only [totalDataSize, sumSizes]
    rw [ih]
    omega

theorem get_chunk_size_buildDirectory : ∀ (blocks : List (List Nat)) (i : Nat),
    i < blocks.length →
    get_chunk_size (buildDirectory blocks 0) (sumSizes blocks) i =
      some (blockSize (blocks.getD i [])) := by
  intro blocks i hi
  unfold get_chunk_size
  rw [if_pos (by rw [buildDirectory_length]; exact hi)]
  rw [buildDirectory_getElem? blocks 0 i hi]
  by_cases hnext : i + 1 < blocks.length
  · rw [buildDirectory_getElem? blocks 0 (i + 1) hnext]
    simp only [checkedSub, Nat.zero_add]
    rw [sumSizes_take_succ blocks i hi]
    rw [if_pos (by omega)]
    congr 1
    omega
  · have hlast : i + 1 = blocks.length := by omega
    rw [List.getElem?_eq_none (by rw [buildDirectory_length]; omega)]
    simp only [checkedSub, Nat.zero_add]
    have hfull : sumSizes blocks = sumSizes (blocks.take i) + blockSize (blocks.getD i []) := by
      have h1 : blocks.take (i + 1) = blocks := by
        rw [hlast]
        exact List.take_length blocks
      conv_lhs => rw [← h1]
      rw [sumSizes_take_succ blocks i hi]
    rw [if_pos (by omega)]
    congr 1
    omega

theorem buildData_eq : ∀ (rest : List (List Nat)) (j : Nat)
    (chunks : List CompressedPostingChunk) (dataLen : Nat),
    (∀ k, k < rest.length →
      get_chunk_size chunks dataLen (j + k) = some (blockSize (rest.getD k [])) ∧
      (chunks.getD (j + k) ⟨0, 0⟩).initial = (rest.getD k []).headD 0) →
    buildData chunks dataLen rest j = concatBlocks (rest.map encBlock) := by
  intro rest
  induction rest with
  | nil => intro j chunks dataLen _; rfl
  | cons blk rest ih =>
    intro j chunks dataLen hk
    have h0 := hk 0 (by simp)
    simp only [Nat.add_zero, List.getD_cons_zero] at h0
    simp only [buildData, List.map_cons, concatBlocks]
    congr 1
    · rw [h0.1]
      simp only [Option.getD_some]
      rw [h0.2]
      unfold blockSize
      rw [compressed_block_size_recover]
      rfl
    · refine ih (j + 1) chunks dataLen ?_
      intro k hklt
      have := hk (k + 1) (by simpa using Nat.succ_lt_succ hklt)
      simpa only [List.getD_cons_succ, Nat.add_assoc, Nat.add_comm 1 k] using this

theorem concatBlocks_encBlock_length : ∀ blocks : List (List Nat),
    (concatBlocks (blocks.map encBlock)).length = sumSizes blocks := by
  intro blocks
  induction blocks with
  | nil => rfl
  | cons blk rest ih =>
    simp only [List.map_cons, concatBlocks, List.length_append, ih, sumSizes]
    congr 1
    exact compress_sorted_length _ _ _

theorem concatBlocks_encBlock_slice : ∀ (blocks : List (List Nat)) (i : Nat),
    i < blocks.length →
    ((concatBlocks (blocks.map encBlock)).drop (sumSizes (blocks.take i))).take
        (blockSize (blocks.getD i [])) = encBlock (blocks.getD i []) := by
  intro blocks
  induction blocks with
  | nil => intro i hi; simp at hi
  | cons blk rest ih =>
    intro i hi
    cases i with
    | zero =>
      simp only [List.take_zero, sumSizes, List.drop_zero, List.getD_cons_zero,
        List.map_cons, concatBlocks]
      have hlen : (encBlock blk).length = blockSize blk := compress_sorted_length _ _ _
      rw [← hlen, List.take_left]
    | succ i =>
      simp only [List.take_succ_cons, sumSizes, List.getD_cons_succ, List.map_cons,
        concatBlocks]
      have hlen : (encBlock blk).length = blockSize blk := compress_sorted_length _ _ _
      have hstep : blockSize blk + sumSizes (rest.take i) =
          (encBlock blk).length + sumSizes (rest.take i) := by rw [hlen]
      rw [hstep, List.drop_append]
      exact ih i (by simpa using Nat.lt_of_succ_lt_succ hi)

/-! ## Structure of `CompressedPostingList.new` -/

theorem blocksOf_empty {p : PostingList} (h : p.list = []) : blocksOf p = [] := by
  unfold blocksOf paddedOf
  rw [h]
  simp [sortList, BLOCK_LEN, chunksExact, chunksExactAux]

theorem new_empty {p : PostingList} (h : p.list = []) :
    CompressedPostingList.new p = ⟨0, 0, [], []⟩ := by
  unfold CompressedPostingList.new
  rw [if_pos h]

theorem new_nonempty {p : PostingList} (h : ¬ p.list = []) :
    CompressedPostingList.new p =
      { len := p.list.length
        last_doc_id := p.list.getLastD 0
        data := buildData (buildDirectory (blocksOf p) 0) (totalDataSize (blocksOf p) 0)
          (blocksOf p) 0
        chunks := buildDirectory (blocksOf p) 0 } := by
  unfold CompressedPostingList.new
  rw [if_neg h]

theorem new_chunks_length (p : PostingList) :
    (CompressedPostingList.new p).chunks.length = (blocksOf p).length := by
  by_cases h : p.list = []
  · rw [new_empty h, blocksOf_empty h]
    rfl
  · rw [new_nonempty h]
    exact buildDirectory_length _ _

theorem new_data_concat {p : PostingList} (h : ¬ p.list = []) :
    (CompressedPostingList.new p).data = concatBlocks ((blocksOf p).map encBlock) := by
  rw [new_nonempty h]
  simp only
  rw [totalDataSize_eq, Nat.zero_add]
  refine buildData_eq (blocksOf p) 0 _ _ ?_
  intro k hk
  simp only [Nat.zero_add]
  constructor
  · exact get_chunk_size_buildDirectory (blocksOf p) k hk
  · rw [List.getD_eq_getElem?_getD, buildDirectory_getElem? _ 0 k hk]
    simp

theorem new_data_length {p : PostingList} (h : ¬ p.list = []) :
    (CompressedPostingList.new p).data.length = sumSizes (blocksOf p) := by
  rw [new_data_concat h]
  exact concatBlocks_encBlock_length _

theorem paddedOf_length_mul (p : PostingList) :
    (paddedOf p).length = BLOCK_LEN * (blocksOf p).length := by
  have hdvd := paddedOf_length_dvd p
  unfold blocksOf
  rw [chunksExact_length hdvd]
  exact (Nat.mul_div_cancel' hdvd).symm

theorem blocksOf_getD {p : PostingList} {i : Nat} (hi : i < (blocksOf p).length) :
    (blocksOf p).getD i [] = ((paddedOf p).drop (BLOCK_LEN * i)).take BLOCK_LEN :=
  chunksExact_getD hi

theorem blocksOf_getD_mem {p : PostingList} {i : Nat} (hi : i < (blocksOf p).length) :
    (blocksOf p).getD i [] ∈ blocksOf p := by
  rw [List.getD_eq_getElem?_getD, List.getElem?_eq_getElem hi]
  simp only [Option.getD_some]
  exact List.getElem_mem hi

theorem blocksOf_block_length {p : PostingList} {i : Nat} (hi : i < (blocksOf p).length) :
    ((blocksOf p).getD i []).length = BLOCK_LEN :=
  chunksExact_mem_length (blocksOf_getD_mem hi)

theorem blocksOf_block_pairwise_le {p : PostingList} {i : Nat} (hi : i < (blocksOf p).length) :
    List.Pairwise (· ≤ ·) ((blocksOf p).getD i []) :=
  chunksExact_mem_pairwise (paddedOf_pairwise_le p) (blocksOf_getD_mem hi)

theorem pairwise_le_headD_cons {blk : List Nat} (hs : List.Pairwise (· ≤ ·) blk)
    (hne : blk ≠ []) : List.Pairwise (· ≤ ·) (blk.headD 0 :: blk) := by
  cases blk with
  | nil => exact absurd rfl hne
  | cons y ys =>
    simp only [List.headD_cons]
    refine List.pairwise_cons.mpr ⟨?_, hs⟩
    intro z hz
    rcases List.mem_cons.mp hz with rfl | hz
    · exact le_refl _
    · exact (List.pairwise_cons.mp hs).1 z hz

theorem decompress_chunk_new (p : PostingList) (i : Nat) (hi : i < (blocksOf p).length) :
    (CompressedPostingList.new p).decompress_chunk i = some ((blocksOf p).getD i []) := by
  by_cases hemp : p.list = []
  · rw [blocksOf_empty hemp] at hi
    simp at hi
  have hchunks : (CompressedPostingList.new p).chunks = buildDirectory (blocksOf p) 0 := by
    rw [new_nonempty hemp]
  have hdata := new_data_concat hemp
  have hdlen := new_data_length hemp
  have hblen : ((blocksOf p).getD i []).length = BLOCK_LEN := blocksOf_block_length hi
  have hbne : (blocksOf p).getD i [] ≠ [] := by
    intro hc
    rw [hc] at hblen
    simp [BLOCK_LEN] at hblen
  unfold CompressedPostingList.decompress_chunk
  split
  · rename_i heq
    rw [hchunks, buildDirectory_getElem? _ 0 i hi] at heq
    simp at heq
  · rename_i chunk heq
    rw [hchunks, buildDirectory_getElem? _ 0 i hi] at heq
    injection heq with heq
    split
    · rename_i heq2
      rw [hchunks, hdlen, get_chunk_size_buildDirectory _ i hi] at heq2
      simp at heq2
    · rename_i chunk_size heq2
      rw [hchunks, hdlen, get_chunk_size_buildDirectory _ i hi] at heq2
      injection heq2 with heq2
      have hoff : chunk.offset = sumSizes ((blocksOf p).take i) := by
        rw [← heq]
        simp
      have hinit : chunk.initial = ((blocksOf p).getD i []).headD 0 := by
        rw [← heq]
      have hbound : chunk.offset + chunk_size ≤ (CompressedPostingList.new p).data.length := by
        rw [hoff, ← heq2, hdlen, ← sumSizes_take_succ _ i hi]
        exact sumSizes_take_le _ _
      rw [if_pos hbound]
      rw [hdata, hoff, ← heq2]
      rw [concatBlocks_encBlock_slice _ i hi]
      rw [hinit]
      unfold blockSize
      rw [compressed_block_size_recover]
      unfold encBlock
      rw [decompress_compress hblen
        (pairwise_le_headD_cons (blocksOf_block_pairwise_le hi) hbne) (le_refl _)]

/-! ## Positions, heads and the candidate chunk -/

theorem getD_mem {l : List Nat} {j : Nat} (hj : j < l.length) : l.getD j 0 ∈ l := by
  rw [List.getD_eq_getElem?_getD, List.getElem?_eq_getElem hj]
  simp only [Option.getD_some]
  exact List.getElem_mem hj

theorem pairwise_rel_getElem? {R : Nat → Nat → Prop} {l : List Nat}
    (hs : List.Pairwise R l) {i j a b : Nat} (hij : i < j)
    (ha : l[i]? = some a) (hb : l[j]? = some b) : R a b := by
  have hj : j < l.length := by
    by_contra hc
    rw [List.getElem?_eq_none (by omega)] at hb
    simp at hb
  have hi : i < l.length := by omega
  have hrel := List.pairwise_iff_get.mp hs ⟨i, hi⟩ ⟨j, hj⟩ hij
  rw [List.getElem?_eq_getElem hi] at ha
  rw [List.getElem?_eq_getElem hj] at hb
  simp only [List.get_eq_getElem] at hrel
  have ha' : l[i] = a := by injection ha
  have hb' : l[j] = b := by injection hb
  rw [ha', hb'] at hrel
  exact hrel

theorem sorted_getD_lt {l : List Nat} (hs : List.Pairwise (· < ·) l) {q1 q2 : Nat}
    (h12 : q1 < q2) (h2 : q2 < l.length) : l.getD q1 0 < l.getD q2 0 := by
  have h1 : q1 < l.length := by omega
  refine pairwise_rel_getElem? hs h12 ?_ ?_
  · rw [List.getElem?_eq_getElem h1, List.getD_eq_getElem?_getD,
      List.getElem?_eq_getElem h1]
    simp
  · rw [List.getElem?_eq_getElem h2, List.getD_eq_getElem?_getD,
      List.getElem?_eq_getElem h2]
    simp

theorem getD_zero_le_of_mem {l : List Nat} (hs : List.Pairwise (· ≤ ·) l) {x : Nat}
    (hx : x ∈ l) : l.getD 0 0 ≤ x := by
  cases l with
  | nil => simp at hx
  | cons y ys =>
    simp only [List.getD_cons_zero]
    rcases List.mem_cons.mp hx with rfl | hx
    · exact le_refl _
    · exact (List.pairwise_cons.mp hs).1 x hx

theorem blocksOf_pos {p : PostingList} (hne : p.list ≠ []) : 0 < (blocksOf p).length := by
  have h1 := paddedOf_length_mul p
  have h2 := paddedOf_length p
  have h3 : 0 < p.list.length := List.length_pos.mpr hne
  simp only [BLOCK_LEN] at h1 h2
  omega

theorem blocksOf_length_bounds {p : PostingList} (_hne : p.list ≠ []) :
    p.list.length ≤ BLOCK_LEN * (blocksOf p).length ∧
      BLOCK_LEN * (blocksOf p).length < p.list.length + BLOCK_LEN := by
  have h1 := paddedOf_length_mul p
  have h2 := paddedOf_length p
  simp only [BLOCK_LEN] at h1 h2 ⊢
  omega

theorem mul_block_lt_len {p : PostingList} (hne : p.list ≠ []) {i : Nat}
    (hi : i < (blocksOf p).length) : BLOCK_LEN * i < p.list.length := by
  have hb := blocksOf_length_bounds hne
  simp only [BLOCK_LEN] at hb ⊢
  omega

theorem paddedOf_eq_of_sorted {p : PostingList} (hs : List.Pairwise (· ≤ ·) p.list) :
    paddedOf p = p.list ++
      List.replicate ((BLOCK_LEN - p.list.length % BLOCK_LEN) % BLOCK_LEN)
        (p.list.getLastD 0) := by
  unfold paddedOf
  rw [sortList_eq_self hs]

theorem padded_getD_eq {p : PostingList} (hs : List.Pairwise (· ≤ ·) p.list) {j : Nat}
    (hj : j < p.list.length) : (paddedOf p).getD j 0 = p.list.getD j 0 := by
  rw [paddedOf_eq_of_sorted hs, List.getD_eq_getElem?_getD, List.getD_eq_getElem?_getD,
    List.getElem?_append]
  rw [if_pos hj]

theorem blocksOf_headD {p : PostingList} {i : Nat} (hi : i < (blocksOf p).length) :
    ((blocksOf p).getD i []).headD 0 = (paddedOf p).getD (BLOCK_LEN * i) 0 := by
  rw [blocksOf_getD hi, List.headD_eq_head?, List.head?_eq_getElem?,
    List.getElem?_take, List.getD_eq_getElem?_getD]
  rw [if_pos (by simp [BLOCK_LEN])]
  rw [List.getElem?_drop]
  simp

theorem buildDirectory_map_initial : ∀ (blocks : List (List Nat)) (off : Nat),
    (buildDirectory blocks off).map (fun c => c.initial) =
      blocks.map (fun blk => blk.headD 0) := by
  intro blocks
  induction blocks with
  | nil => intro off; rfl
  | cons blk rest ih => intro off; simp [buildDirectory, ih]

theorem new_chunks_map_initial {p : PostingList} (h : ¬ p.list = []) :
    (CompressedPostingList.new p).chunks.map (fun c => c.initial) =
      (blocksOf p).map (fun blk => blk.headD 0) := by
  rw [new_nonempty h]
  exact buildDirectory_map_initial _ _

theorem inits_getElem? {p : PostingList} {j : Nat} (hj : j < (blocksOf p).length) :
    ((blocksOf p).map (fun blk => blk.headD 0))[j]? =
      some (((blocksOf p).getD j []).headD 0) := by
  rw [List.getElem?_map, List.getElem?_eq_getElem hj, List.getD_eq_getElem?_getD,
    List.getElem?_eq_getElem hj]
  simp

theorem inits_pairwise_lt {p : PostingList} (hs : List.Pairwise (· < ·) p.list)
    (hne : p.list ≠ []) :
    List.Pairwise (· < ·) ((blocksOf p).map (fun blk => blk.headD 0)) := by
  have hsle : List.Pairwise (· ≤ ·) p.list := hs.imp (fun h => le_of_lt h)
  refine List.pairwise_iff_get.mpr ?_
  intro i j hij
  have hjlen : (j : Nat) < (blocksOf p).length := by
    have := j.isLt
    simpa using this
  have hilen : (i : Nat) < (blocksOf p).length := by
    have := i.isLt
    simpa using this
  simp only [List.get_eq_getElem, List.getElem_map]
  have hgi : (blocksOf p)[(i : Nat)] = (blocksOf p).getD i [] := by
    rw [List.getD_eq_getElem?_getD, List.getElem?_eq_getElem hilen]
    simp
  have hgj : (blocksOf p)[(j : Nat)] = (blocksOf p).getD j [] := by
    rw [List.getD_eq_getElem?_getD, List.getElem?_eq_getElem hjlen]
    simp
  rw [hgi, hgj, blocksOf_headD hilen, blocksOf_headD hjlen,
    padded_getD_eq hsle (mul_block_lt_len hne hilen),
    padded_getD_eq hsle (mul_block_lt_len hne hjlen)]
  refine sorted_getD_lt hs ?_ (mul_block_lt_len hne hjlen)
  have hij' : (i : Nat) < (j : Nat) := hij
  simp only [BLOCK_LEN]
  omega

theorem findCandidate_eq_ok {inits : List Nat} {t k : Nat}
    (hb : binarySearch inits t = Except.ok k) : findCandidate inits t = some k := by
  unfold findCandidate
  rw [hb]

theorem findCandidate_eq_error {inits : List Nat} {t k : Nat}
    (hb : binarySearch inits t = Except.error k) :
    findCandidate inits t = if 0 < k then some (k - 1) else none := by
  unfold findCandidate
  rw [hb]

theorem findCandidate_lt_length {inits : List Nat} {t i : Nat}
    (h : findCandidate inits t = some i) : i < inits.length := by
  cases hb : binarySearch inits t with
  | ok k =>
    rw [findCandidate_eq_ok hb] at h
    injection h with h
    subst h
    rcases binarySearch_ok_spec hb with ⟨_, hsome⟩
    exact (List.getElem?_eq_some.mp hsome).1
  | error k =>
    rw [findCandidate_eq_error hb] at h
    rcases binarySearch_error_spec hb with ⟨hk, _⟩
    have hkle : k ≤ inits.length := hk ▸ lowerBound_le_length t inits
    split at h
    · injection h with h
      omega
    · simp at h

theorem findCandidate_le {inits : List Nat} {t i : Nat}
    (h : findCandidate inits t = some i) {x : Nat} (hx : inits[i]? = some x) : x ≤ t := by
  cases hb : binarySearch inits t with
  | ok k =>
    rw [findCandidate_eq_ok hb] at h
    injection h with h
    subst h
    rcases binarySearch_ok_spec hb with ⟨_, hsome⟩
    rw [hsome] at hx
    injection hx with hx
    omega
  | error k =>
    rw [findCandidate_eq_error hb] at h
    rcases binarySearch_error_spec hb with ⟨hk, _⟩
    split at h
    · rename_i hkpos
      injection h with h
      subst h
      have : x < t := lt_of_getElem?_lt_lowerBound (by omega) hx
      omega
    · simp at h

theorem findCandidate_gt {inits : List Nat} (hsi : List.Pairwise (· < ·) inits)
    {t i : Nat} (h : findCandidate inits t = some i) {j x : Nat} (hij : i < j)
    (hx : inits[j]? = some x) : t < x := by
  have hjlen : j < inits.length := by
    by_contra hc
    rw [List.getElem?_eq_none (by omega)] at hx
    simp at hx
  cases hb : binarySearch inits t with
  | ok k =>
    rw [findCandidate_eq_ok hb] at h
    injection h with h
    subst h
    rcases binarySearch_ok_spec hb with ⟨_, hsome⟩
    exact pairwise_rel_getElem? hsi hij hsome hx
  | error k =>
    rw [findCandidate_eq_error hb] at h
    rcases binarySearch_error_spec hb with ⟨hk, hkspec⟩
    split at h
    · rename_i hkpos
      injection h with h
      subst h
      have hklen : k < inits.length := by omega
      have hksome : inits[k]? = some (inits.get ⟨k, hklen⟩) := by
        rw [List.getElem?_eq_getElem hklen]
        simp
      rcases hkspec _ hksome with ⟨hty, htne⟩
      have hty' : t < inits.get ⟨k, hklen⟩ := by omega
      rcases Nat.lt_or_ge k j with hkj | hkj
      · have := pairwise_rel_getElem? hsi hkj hksome hx
        omega
      · have hkeq : k = j := by omega
        subst hkeq
        rw [hksome] at hx
        injection hx with hx
        omega
    · simp at h

theorem findCandidate_none {inits : List Nat} (hsi : List.Pairwise (· < ·) inits)
    {t : Nat} (h : findCandidate inits t = none) {j x : Nat}
    (hx : inits[j]? = some x) : t < x := by
  have hjlen : j < inits.length := by
    by_contra hc
    rw [List.getElem?_eq_none (by omega)] at hx
    simp at hx
  cases hb : binarySearch inits t with
  | ok k => rw [findCandidate_eq_ok hb] at h; simp at h
  | error k =>
    rw [findCandidate_eq_error hb] at h
    rcases binarySearch_error_spec hb with ⟨hk, hkspec⟩
    split at h
    · simp at h
    · rename_i hknpos
      have hk0 : k = 0 := by omega
      subst hk0
      have h0len : 0 < inits.length := by omega
      have h0some : inits[0]? = some (inits.get ⟨0, h0len⟩) := by
        rw [List.getElem?_eq_getElem h0len]
        simp
      rcases hkspec _ h0some with ⟨hty, htne⟩
      have hty' : t < inits.get ⟨0, h0len⟩ := by omega
      rcases Nat.eq_zero_or_pos j with hj0 | hjpos
      · subst hj0
        rw [h0some] at hx
        injection hx with hx
        omega
      · have := pairwise_rel_getElem? hsi hjpos h0some hx
        omega

/-! ## Membership partition across blocks -/

theorem headD_eq_getD_zero (l : List Nat) : l.headD 0 = l.getD 0 0 := by
  cases l <;> rfl

theorem head_le_of_mem_pairwise_le {blk : List Nat} (hs : List.Pairwise (· ≤ ·) blk)
    {v : Nat} (hv : v ∈ blk) : blk.headD 0 ≤ v := by
  rw [headD_eq_getD_zero]
  exact getD_zero_le_of_mem hs hv

theorem mem_concatBlocks {v : Nat} {ls : List (List Nat)} :
    v ∈ concatBlocks ls ↔ ∃ blk ∈ ls, v ∈ blk := by
  induction ls with
  | nil => simp [concatBlocks]
  | cons blk rest ih =>
    simp only [concatBlocks, List.mem_append, ih, List.mem_cons]
    constructor
    · rintro (hv | ⟨b, hb, hvb⟩)
      · exact ⟨blk, Or.inl rfl, hv⟩
      · exact ⟨b, Or.inr hb, hvb⟩
    · rintro ⟨b, (rfl | hb), hvb⟩
      · exact Or.inl hvb
      · exact Or.inr ⟨b, hb, hvb⟩

theorem blocksOf_exists_of_mem_padded {p : PostingList} {v : Nat}
    (hv : v ∈ paddedOf p) :
    ∃ j, j < (blocksOf p).length ∧ v ∈ (blocksOf p).getD j [] := by
  have hconc : concatBlocks (blocksOf p) = paddedOf p :=
    chunksExact_concat (paddedOf_length_dvd p)
  rw [← hconc] at hv
  rcases mem_concatBlocks.mp hv with ⟨blk, hblk, hvblk⟩
  rcases List.mem_iff_get.mp hblk with ⟨⟨j, hj⟩, hget⟩
  refine ⟨j, hj, ?_⟩
  rw [List.getD_eq_getElem?_getD, List.getElem?_eq_getElem hj]
  simp only [Option.getD_some]
  simp only [List.get_eq_getElem] at hget
  rw [hget]
  exact hvblk

theorem block_sublist_paddedOf {p : PostingList} {i : Nat}
    (hi : i < (blocksOf p).length) :
    ((blocksOf p).getD i []).Sublist (paddedOf p) := by
  rw [blocksOf_getD hi]
  exact (List.take_sublist _ _).trans (List.drop_sublist _ _)

theorem mem_paddedOf_iff {p : PostingList} (hsle : List.Pairwise (· ≤ ·) p.list)
    (hne : p.list ≠ []) {v : Nat} : v ∈ paddedOf p ↔ v ∈ p.list := by
  rw [paddedOf_eq_of_sorted hsle]
  constructor
  · intro hv
    rcases List.mem_append.mp hv with hv | hv
    · exact hv
    · rw [List.eq_of_mem_replicate hv]
      exact getLastD_mem hne
  · exact List.mem_append_left _

theorem mem_block_position {p : PostingList} {j v : Nat} (hj : j < (blocksOf p).length)
    (hv : v ∈ (blocksOf p).getD j []) :
    ∃ q, BLOCK_LEN * j ≤ q ∧ q < BLOCK_LEN * (j + 1) ∧ (paddedOf p).getD q 0 = v := by
  rw [blocksOf_getD hj] at hv
  rcases List.mem_iff_get.mp hv with ⟨⟨k, hk⟩, hget⟩
  have hkB : k < BLOCK_LEN := by
    have := hk
    rw [List.length_take] at this
    omega
  refine ⟨BLOCK_LEN * j + k, by omega, by simp only [BLOCK_LEN] at hkB ⊢; omega, ?_⟩
  simp only [List.get_eq_getElem] at hget
  have h1 : (((paddedOf p).drop (BLOCK_LEN * j)).take BLOCK_LEN)[k]? =
      (paddedOf p)[BLOCK_LEN * j + k]? := by
    rw [List.getElem?_take, if_pos hkB, List.getElem?_drop]
  rw [List.getD_eq_getElem?_getD, ← h1, List.getElem?_eq_getElem hk]
  simp only [Option.getD_some]
  exact hget

theorem mem_list_iff_mem_block {p : PostingList} (hs : List.Pairwise (· < ·) p.list)
    (hne : p.list ≠ []) {i v : Nat} (hi : i < (blocksOf p).length)
    (hle : ((blocksOf p).getD i []).headD 0 ≤ v)
    (hgt : ∀ j, i < j → j < (blocksOf p).length → v < ((blocksOf p).getD j []).headD 0) :
    (v ∈ p.list ↔ v ∈ (blocksOf p).getD i []) := by
  have hsle : List.Pairwise (· ≤ ·) p.list := hs.imp (fun h => le_of_lt h)
  constructor
  · intro hv
    have hvp : v ∈ paddedOf p := (mem_paddedOf_iff hsle hne).mpr hv
    rcases blocksOf_exists_of_mem_padded hvp with ⟨j, hj, hvblk⟩
    rcases Nat.lt_trichotomy j i with hji | hjeq | hij
    · exfalso
      rcases mem_block_position hj hvblk with ⟨q, hq1, hq2, hq3⟩
      have hBi : BLOCK_LEN * i < p.list.length := mul_block_lt_len hne hi
      have hqn : q < p.list.length := by
        simp only [BLOCK_LEN] at hq2 hBi ⊢
        omega
      have hhead : ((blocksOf p).getD i []).headD 0 = p.list.getD (BLOCK_LEN * i) 0 := by
        rw [blocksOf_headD hi, padded_getD_eq hsle hBi]
      have hql : p.list.getD q 0 = v := by
        rw [← padded_getD_eq hsle hqn, hq3]
      have hlt : p.list.getD q 0 < p.list.getD (BLOCK_LEN * i) 0 := by
        refine sorted_getD_lt hs ?_ hBi
        simp only [BLOCK_LEN] at hq2 ⊢
        omega
      rw [hql, ← hhead] at hlt
      omega
    · rw [hjeq] at hvblk
      exact hvblk
    · exfalso
      have h1 : ((blocksOf p).getD j []).headD 0 ≤ v :=
        head_le_of_mem_pairwise_le (blocksOf_block_pairwise_le hj) hvblk
      have h2 := hgt j hij hj
      omega
  · intro hv
    have hvp : v ∈ paddedOf p := (block_sublist_paddedOf hi).mem hv
    exact (mem_paddedOf_iff hsle hne).mp hvp

/-! ## Correctness of `CompressedPostingList.contains` -/

theorem is_in_postings_range_true_iff (cl : CompressedPostingList) (v : Nat) :
    cl.is_in_postings_range v = true ↔
      (0 < cl.chunks.length ∧ (cl.chunks.headD ⟨0, 0⟩).initial ≤ v ∧
        v ≤ cl.last_doc_id) := by
  unfold CompressedPostingList.is_in_postings_range
  simp

theorem new_chunks_eq {p : PostingList} (h : ¬ p.list = []) :
    (CompressedPostingList.new p).chunks = buildDirectory (blocksOf p) 0 := by
  rw [new_nonempty h]

theorem new_chunks_headD_initial {p : PostingList} (hne : ¬ p.list = []) :
    ((CompressedPostingList.new p).chunks.headD ⟨0, 0⟩).initial =
      ((blocksOf p).getD 0 []).headD 0 := by
  have hK := blocksOf_pos hne
  rw [new_chunks_eq hne, List.headD_eq_head?, List.head?_eq_getElem?,
    buildDirectory_getElem? _ 0 0 hK]
  simp [sumSizes]

theorem find_chunk_none_eq {p : PostingList} (hne : ¬ p.list = []) (v : Nat) :
    (CompressedPostingList.new p).find_chunk v none =
      some (findCandidate ((blocksOf p).map (fun blk => blk.headD 0)) v) := by
  unfold CompressedPostingList.find_chunk
  simp only [Option.getD_none]
  rw [if_pos (Nat.zero_le _), List.drop_zero, new_chunks_map_initial hne]

theorem block_headD_mem {p : PostingList} (hsle : List.Pairwise (· ≤ ·) p.list)
    (hne : p.list ≠ []) {i : Nat} (hi : i < (blocksOf p).length) :
    ((blocksOf p).getD i []).headD 0 ∈ p.list := by
  rw [blocksOf_headD hi, padded_getD_eq hsle (mul_block_lt_len hne hi)]
  exact getD_mem (mul_block_lt_len hne hi)

theorem contains_new_eq {p : PostingList} (hs : List.Pairwise (· < ·) p.list) (v : Nat) :
    (CompressedPostingList.new p).contains v = some (p.contains v) := by
  by_cases hemp : p.list = []
  · have h2 : p.contains v = false := by
      unfold PostingList.contains
      rw [hemp]
      rfl
    rw [new_empty hemp, h2]
    rfl
  · have hsle : List.Pairwise (· ≤ ·) p.list := hs.imp (fun h => le_of_lt h)
    have hKpos : 0 < (blocksOf p).length := blocksOf_pos hemp
    have hhead0 : ((blocksOf p).getD 0 []).headD 0 = p.list.getD 0 0 := by
      rw [blocksOf_headD hKpos]
      have hB0 : BLOCK_LEN * 0 = 0 := by simp
      rw [hB0, padded_getD_eq hsle (List.length_pos.mpr hemp)]
    by_cases hr : (CompressedPostingList.new p).is_in_postings_range v = true
    case neg =>
      have hclen : 0 < (CompressedPostingList.new p).chunks.length := by
        rw [new_chunks_length]
        exact hKpos
      have hrr : ¬ (0 < (CompressedPostingList.new p).chunks.length ∧
          ((CompressedPostingList.new p).chunks.headD ⟨0, 0⟩).initial ≤ v ∧
          v ≤ (CompressedPostingList.new p).last_doc_id) := by
        intro hc
        exact hr ((is_in_postings_range_true_iff _ _).mpr hc)
      have hcases : v < p.list.getD 0 0 ∨ p.list.getLastD 0 < v := by
        rcases Nat.lt_or_ge v (p.list.getD 0 0) with h | h
        · exact Or.inl h
        · right
          by_contra hc
          push_neg at hc
          apply hrr
          refine ⟨hclen, ?_, ?_⟩
          · rw [new_chunks_headD_initial hemp, hhead0]
            exact h
          · rw [show (CompressedPostingList.new p).last_doc_id = p.list.getLastD 0 by
              rw [new_nonempty hemp]]
            exact hc
      have hnmem : v ∉ p.list := by
        intro hm
        rcases hcases with h | h
        · have := getD_zero_le_of_mem hsle hm
          omega
        · have := le_getLastD_of_pairwise hsle hm
          omega
      have hpc : p.contains v = false := by
        cases hcv : p.contains v
        · rfl
        · exact absurd ((bsOk_iff_mem hsle).mp hcv) hnmem
      unfold CompressedPostingList.contains
      rw [if_pos hr, hpc]
    case pos =>
      rcases (is_in_postings_range_true_iff _ _).mp hr with ⟨hclen, hinitle, hlastle⟩
      have hinits := inits_pairwise_lt hs hemp
      have hinitle' : ((blocksOf p).getD 0 []).headD 0 ≤ v := by
        rw [new_chunks_headD_initial hemp] at hinitle
        exact hinitle
      unfold CompressedPostingList.contains
      rw [if_neg (not_not_intro hr)]
      split
      · rename_i heq
        rw [find_chunk_none_eq hemp] at heq
        simp at heq
      · rename_i heq
        rw [find_chunk_none_eq hemp] at heq
        injection heq with heq
        exact absurd (findCandidate_none hinits heq (inits_getElem? hKpos)) (by omega)
      · rename_i ci heq
        rw [find_chunk_none_eq hemp] at heq
        injection heq with heq
        have hci : ci < (blocksOf p).length := by
          have := findCandidate_lt_length heq
          simpa using this
        have hcile : ((blocksOf p).getD ci []).headD 0 ≤ v :=
          findCandidate_le heq (inits_getElem? hci)
        split
        · rename_i heq2
          rw [new_chunks_eq hemp, buildDirectory_getElem? _ 0 ci hci] at heq2
          simp at heq2
        · rename_i chunk heq2
          rw [new_chunks_eq hemp, buildDirectory_getElem? _ 0 ci hci] at heq2
          injection heq2 with heq2
          split
          · rename_i hiv
            have hveq : ((blocksOf p).getD ci []).headD 0 = v := by
              rw [← heq2] at hiv
              exact hiv
            have hvmem : v ∈ p.list := by
              rw [← hveq]
              exact block_headD_mem hsle hemp hci
            have hpc : p.contains v = true := (bsOk_iff_mem hsle).mpr hvmem
            rw [hpc]
          · rename_i hiv
            split
            · rename_i heq3
              rw [decompress_chunk_new p ci hci] at heq3
              simp at heq3
            · rename_i dec heq3
              rw [decompress_chunk_new p ci hci] at heq3
              injection heq3 with heq3
              have hiff : v ∈ p.list ↔ v ∈ (blocksOf p).getD ci [] := by
                refine mem_list_iff_mem_block hs hemp hci hcile ?_
                intro j hj1 hj2
                exact findCandidate_gt hinits heq hj1 (inits_getElem? hj2)
              have hbs : bsOk dec v = p.contains v := by
                rw [← heq3]
                unfold PostingList.contains
                by_cases hm : v ∈ p.list
                · rw [(bsOk_iff_mem (blocksOf_block_pairwise_le hci)).mpr (hiff.mp hm),
                    (bsOk_iff_mem hsle).mpr hm]
                · have h1 : bsOk ((blocksOf p).getD ci []) v = false := by
                    cases hx : bsOk ((blocksOf p).getD ci []) v
                    · rfl
                    · exact absurd
                        (hiff.mpr ((bsOk_iff_mem (blocksOf_block_pairwise_le hci)).mp hx)) hm
                  have h2 : bsOk p.list v = false := by
                    cases hx : bsOk p.list v
                    · rfl
                    · exact absurd ((bsOk_iff_mem hsle).mp hx) hm
                  rw [h1, h2]
              rw [hbs]

/-! ## Iterator round trip -/

theorem decompressFromAux_new (p : PostingList) : ∀ (fuel i : Nat),
    (blocksOf p).length ≤ i + fuel →
    decompressFromAux (CompressedPostingList.new p) fuel i =
      some (concatBlocks ((blocksOf p).drop i)) := by
  intro fuel
  induction fuel with
  | zero =>
    intro i hle
    have hdrop : (blocksOf p).drop i = [] := List.drop_eq_nil_of_le (by omega)
    rw [hdrop]
    rfl
  | succ fuel ih =>
    intro i hle
    simp only [decompressFromAux]
    by_cases hi : i < (CompressedPostingList.new p).chunks.length
    · rw [if_pos hi]
      have hiK : i < (blocksOf p).length := by
        rw [new_chunks_length] at hi
        exact hi
      rw [decompress_chunk_new p i hiK, ih (i + 1) (by omega)]
      have hdi : (blocksOf p).drop i =
          (blocksOf p).getD i [] :: (blocksOf p).drop (i + 1) := by
        rw [List.drop_eq_getElem_cons hiK]
        congr 1
        rw [List.getD_eq_getElem?_getD, List.getElem?_eq_getElem hiK]
        simp
      rw [hdi]
      rfl
    · rw [if_neg hi]
      have hiK : (blocksOf p).length ≤ i := by
        rw [new_chunks_length] at hi
        omega
      rw [List.drop_eq_nil_of_le hiK]
      rfl

theorem iter_new_eq {p : PostingList} (hs : List.Pairwise (· < ·) p.list) :
    (CompressedPostingList.new p).iter = some p.list := by
  by_cases hemp : p.list = []
  · rw [new_empty hemp, hemp]
    rfl
  · unfold CompressedPostingList.iter
    rw [decompressFromAux_new p (CompressedPostingList.new p).chunks.length 0
      (by rw [new_chunks_length]; omega)]
    rw [List.drop_zero]
    have hconc : concatBlocks (blocksOf p) = paddedOf p :=
      chunksExact_concat (paddedOf_length_dvd p)
    rw [hconc]
    have hlen : (CompressedPostingList.new p).len = p.list.length := by
      rw [new_nonempty hemp]
    rw [hlen]
    show some ((paddedOf p).take p.list.length) = some p.list
    have htake : (paddedOf p).take p.list.length = p.list := by
      rw [paddedOf_eq_of_sorted (hs.imp (fun h => le_of_lt h))]
      exact List.take_left _ _
    rw [htake]

/-! ## Totality (panic freedom) of queries on compressed lists -/

theorem find_chunk_eq (cl : CompressedPostingList) (val : Nat) (st : Option Nat)
    (hse : st.getD 0 ≤ cl.chunks.length) :
    cl.find_chunk val st =
      some (findCandidate ((cl.chunks.drop (st.getD 0)).map (fun c => c.initial)) val) := by
  simp only [CompressedPostingList.find_chunk]
  rw [if_pos hse]

theorem contains_new_isSome (p : PostingList) (v : Nat) :
    ((CompressedPostingList.new p).contains v).isSome = true := by
  cases hres : (CompressedPostingList.new p).contains v with
  | some b => rfl
  | none =>
    exfalso
    unfold CompressedPostingList.contains at hres
    split at hres
    · simp at hres
    · rename_i hr
      have hr' : (CompressedPostingList.new p).is_in_postings_range v = true := not_not.mp hr
      have hclen := ((is_in_postings_range_true_iff _ _).mp hr').1
      have hemp : ¬ p.list = [] := by
        intro hc
        rw [new_empty hc] at hclen
        simp at hclen
      split at hres
      · rename_i heq
        rw [find_chunk_none_eq hemp] at heq
        simp at heq
      · simp at hres
      · rename_i ci heq
        rw [find_chunk_none_eq hemp] at heq
        injection heq with heq
        have hci : ci < (blocksOf p).length := by
          have := findCandidate_lt_length heq
          simpa using this
        split at hres
        · rename_i heq2
          rw [new_chunks_eq hemp, buildDirectory_getElem? _ 0 ci hci] at heq2
          simp at heq2
        · split at hres
          · simp at hres
          · split at hres
            · rename_i heq3
              rw [decompress_chunk_new p ci hci] at heq3
              simp at heq3
            · simp at hres

theorem visitorAdvance_spec {p : PostingList} {v : CompressedPostingVisitor}
    (hwf : VisitorWF p v) (val : Nat) :
    ∃ r, visitorAdvance v val = some r ∧ VisitorWF p r.1 := by
  rcases hwf with ⟨hpost, hidx⟩
  have hse : v.decompressed_chunk_idx.getD 0 ≤ v.postings.chunks.length := by
    cases hdi : v.decompressed_chunk_idx with
    | none => simp
    | some s =>
      simp only [Option.getD_some]
      exact le_of_lt (hidx s hdi)
  cases hres : visitorAdvance v val with
  | some r =>
    refine ⟨r, rfl, ?_⟩
    unfold visitorAdvance at hres
    split at hres
    · simp at hres
    · rename_i heq
      injection hres with hres
      rw [← hres]
      exact ⟨hpost, hidx⟩
    · rename_i ci heq
      rw [find_chunk_eq _ _ _ hse] at heq
      injection heq with heq
      have hci : ci < v.postings.chunks.length := by
        have h1 := findCandidate_lt_length heq
        rw [List.length_map, List.length_drop] at h1
        omega
      split at hres
      · simp at hres
      · rename_i chunk heq2
        split at hres
        · injection hres with hres
          rw [← hres]
          exact ⟨hpost, hidx⟩
        · split at hres
          · simp at hres
          · rename_i dec heq3
            injection hres with hres
            rw [← hres]
            refine ⟨hpost, ?_⟩
            intro j hj
            simp only at hj
            injection hj with hj
            rw [← hj]
            exact hci
  | none =>
    exfalso
    unfold visitorAdvance at hres
    split at hres
    · rename_i heq
      rw [find_chunk_eq _ _ _ hse] at heq
      simp at heq
    · simp at hres
    · rename_i ci heq
      rw [find_chunk_eq _ _ _ hse] at heq
      injection heq with heq
      have hci : ci < v.postings.chunks.length := by
        have h1 := findCandidate_lt_length heq
        rw [List.length_map, List.length_drop] at h1
        omega
      split at hres
      · rename_i heq2
        rw [List.getElem?_eq_getElem hci] at heq2
        simp at heq2
      · rename_i chunk heq2
        split at hres
        · simp at hres
        · split at hres
          · rename_i heq3
            rw [hpost] at heq3
            have hciK : ci < (blocksOf p).length := by
              rw [hpost, new_chunks_length] at hci
              exact hci
            rw [decompress_chunk_new p ci hciK] at heq3
            simp at heq3
          · simp at hres

theorem visitor_contains_spec {p : PostingList} {v : CompressedPostingVisitor}
    (hwf : VisitorWF p v) (val : Nat) :
    ∃ r, v.contains val = some r ∧ VisitorWF p r.1 := by
  cases hres : v.contains val with
  | some r =>
    refine ⟨r, rfl, ?_⟩
    unfold CompressedPostingVisitor.contains at hres
    split at hres
    · injection hres with hres
      rw [← hres]
      exact hwf
    · split at hres
      · split at hres
        · injection hres with hres
          rw [← hres]
          exact hwf
        · split at hres
          · injection hres with hres
            rw [← hres]
            exact hwf
          · rcases visitorAdvance_spec hwf val with ⟨r2, hr2, hwf2⟩
            rw [hres] at hr2
            injection hr2 with hr2
            rw [hr2]
            exact hwf2
      · rcases visitorAdvance_spec hwf val with ⟨r2, hr2, hwf2⟩
        rw [hres] at hr2
        injection hr2 with hr2
        rw [hr2]
        exact hwf2
  | none =>
    exfalso
    unfold CompressedPostingVisitor.contains at hres
    split at hres
    · simp at hres
    · split at hres
      · split at hres
        · simp at hres
        · split at hres
          · simp at hres
          · rcases visitorAdvance_spec hwf val with ⟨r2, hr2, _⟩
            rw [hres] at hr2
            simp at hr2
      · rcases visitorAdvance_spec hwf val with ⟨r2, hr2, _⟩
        rw [hres] at hr2
        simp at hr2

theorem runVisitorAux_isSome {p : PostingList} : ∀ (probes : List Nat)
    (v : CompressedPostingVisitor), VisitorWF p v →
    (runVisitorAux v probes).isSome = true := by
  intro probes
  induction probes with
  | nil => intro v _; rfl
  | cons x xs ih =>
    intro v hwf
    rcases visitor_contains_spec hwf x with ⟨⟨v2, b⟩, hr, hwf2⟩
    have hstep : runVisitorAux v (x :: xs) =
        match runVisitorAux v2 xs with
        | none => none
        | some bs => some (b :: bs) := by
      simp only [runVisitorAux]
      rw [hr]
    rw [hstep]
    have := ih v2 hwf2
    cases hrest : runVisitorAux v2 xs with
    | none => rw [hrest] at this; simp at this
    | some bs => rfl

theorem runVisitor_new_isSome (p : PostingList) (probes : List Nat) :
    (runVisitor (CompressedPostingList.new p) probes).isSome = true := by
  refine runVisitorAux_isSome probes _ ⟨rfl, ?_⟩
  intro i hi
  simp [CompressedPostingVisitor.new] at hi

/-! ## Reachability of sorted lists, range gate, and field lemmas -/

theorem lowerBound_eq_length_of_all_lt {t : Nat} {xs : List Nat}
    (h : ∀ y ∈ xs, y < t) : lowerBound t xs = xs.length := by
  induction xs with
  | nil => rfl
  | cons x xs ih =>
    have hx : x < t := h x (List.mem_cons_self x xs)
    rw [lowerBound, if_neg (by omega), ih (fun y hy => h y (List.mem_cons_of_mem x hy))]
    rfl

theorem insert_append_gt {p : PostingList} {x : Nat} (h : ∀ y ∈ p.list, y < x) :
    p.insert x = ⟨p.list ++ [x]⟩ := by
  have hlb := lowerBound_eq_length_of_all_lt h
  have hbs : binarySearch p.list x = Except.error p.list.length := by
    unfold binarySearch
    rw [hlb, dif_neg (lt_irrefl _)]
  unfold PostingList.insert
  rw [hbs]
  show PostingList.mk (p.list.take p.list.length ++ x :: p.list.drop p.list.length) = _
  rw [List.take_length, List.drop_length]

theorem foldl_ins_append : ∀ (l : List Nat) (p : PostingList),
    (∀ y ∈ p.list, ∀ z ∈ l, y < z) → List.Pairwise (· < ·) l →
    (l.map Op.ins).foldl applyOp p = ⟨p.list ++ l⟩ := by
  intro l
  induction l with
  | nil =>
    intro p _ _
    simp only [List.map_nil, List.foldl_nil, List.append_nil]
  | cons x xs ih =>
    intro p hpl hs
    simp only [List.map_cons, List.foldl_cons]
    have hins : applyOp p (Op.ins x) = ⟨p.list ++ [x]⟩ :=
      insert_append_gt (fun y hy => hpl y hy x (List.mem_cons_self x xs))
    rw [hins, ih ⟨p.list ++ [x]⟩ ?_ (List.pairwise_cons.mp hs).2]
    · simp
    · intro y hy z hz
      rcases List.mem_append.mp hy with hy | hy
      · exact hpl y hy z (List.mem_cons_of_mem x hz)
      · rw [List.mem_singleton.mp hy]
        exact (List.pairwise_cons.mp hs).1 z hz

theorem reachable_of_sorted {l : List Nat} (hs : List.Pairwise (· < ·) l) :
    Reachable ⟨l⟩ := by
  refine ⟨l.map Op.ins, ?_⟩
  unfold applyOps
  rw [foldl_ins_append l ⟨[]⟩ (by intro y hy; simp at hy) hs]
  rfl

theorem contains_out_of_range (cl : CompressedPostingList) (v : Nat)
    (h : cl.chunks = [] ∨ v < (cl.chunks.headD ⟨0, 0⟩).initial ∨ cl.last_doc_id < v) :
    cl.contains v = some false := by
  have hrf : ¬ cl.is_in_postings_range v = true := by
    intro hc
    rcases (is_in_postings_range_true_iff _ _).mp hc with ⟨h1, h2, h3⟩
    rcases h with h | h | h
    · rw [h] at h1
      simp at h1
    · omega
    · omega
  unfold CompressedPostingList.contains
  rw [if_pos hrf]

theorem new_len_eq (p : PostingList) :
    (CompressedPostingList.new p).len = p.list.length := by
  by_cases h : p.list = []
  · rw [new_empty h, h]
    rfl
  · rw [new_nonempty h]

theorem new_last_doc_id_eq {p : PostingList} (h : ¬ p.list = []) :
    (CompressedPostingList.new p).last_doc_id = p.list.getLastD 0 := by
  rw [new_nonempty h]

theorem new_len_zero_iff_chunks (p : PostingList) :
    ((CompressedPostingList.new p).len = 0 ↔ (CompressedPostingList.new p).chunks = []) ∧
      ((CompressedPostingList.new p).len = 0 → (CompressedPostingList.new p).data = []) := by
  by_cases h : p.list = []
  · rw [new_empty h]
    simp
  · have h1 : (CompressedPostingList.new p).len ≠ 0 := by
      rw [new_len_eq]
      intro hc
      exact h (List.length_eq_zero.mp hc)
    have h2 : (CompressedPostingList.new p).chunks ≠ [] := by
      intro hc
      have h3 := new_chunks_length p
      rw [hc] at h3
      have h4 := blocksOf_pos h
      simp at h3
      omega
    exact ⟨⟨fun hc => absurd hc h1, fun hc => absurd hc h2⟩, fun hc => absurd hc h1⟩

/-! ## Claim theorems -/

/-- C7: for every sequence of insert and remove operations applied to an
initially empty mutable `PostingList`, the internal sequence is strictly
increasing (sorted, duplicate-free); inserting an already-present DocId and
removing an absent DocId leave the list unchanged. -/
theorem mutable_posting_list_invariant (ops : List Op) :
    List.Pairwise (· < ·) (applyOps ops).list ∧
      ∀ d : Nat,
        ((applyOps ops).contains d = true → (applyOps ops).insert d = applyOps ops) ∧
        ((applyOps ops).contains d = false → (applyOps ops).remove d = applyOps ops) :=
  ⟨applyOps_sorted ops,
    fun _ => ⟨fun h => insert_of_contains h, fun h => remove_of_not_contains h⟩⟩

/-- Witness for C7: concrete no-op insert of a present DocId and no-op remove
of an absent DocId. -/
theorem mutable_posting_list_invariant_witness :
    (applyOps [Op.ins 42]).insert 42 = applyOps [Op.ins 42] ∧
      (applyOps [Op.ins 42]).remove 7 = applyOps [Op.ins 42] :=
  ⟨((mutable_posting_list_invariant [Op.ins 42]).2 42).1 (by decide),
    ((mutable_posting_list_invariant [Op.ins 42]).2 7).2 (by decide)⟩

/-- C3: for every mutable posting list built through the public API and every
DocId, the stateless `CompressedPostingList::contains` (directory search
starting at chunk 0) returns the same boolean as `PostingList::contains`,
and in particular does not panic. -/
theorem compressed_contains_eq_mutable (p : PostingList) (h : Reachable p) (v : Nat) :
    (CompressedPostingList.new p).contains v = some (p.contains v) :=
  contains_new_eq (reachable_sorted h) v

set_option maxRecDepth 4000 in
/-- Witness for C3 at the single-element list `[42]` probed with `42`. -/
theorem compressed_contains_eq_mutable_witness :
    (CompressedPostingList.new ⟨[42]⟩).contains 42 =
      some ((⟨[42]⟩ : PostingList).contains 42) :=
  compressed_contains_eq_mutable ⟨[42]⟩ ⟨[Op.ins 42], by decide⟩ 42

/-- C4: for every mutable posting list built through the public API, iterating
the compressed list decodes every chunk in order and truncates to `len`
elements, yielding exactly the mutable list's sequence (padding is never
emitted). -/
theorem compressed_iter_roundtrip (p : PostingList) (h : Reachable p) :
    (CompressedPostingList.new p).iter = some p.list :=
  iter_new_eq (reachable_sorted h)

set_option maxRecDepth 4000 in
/-- Witness for C4 at the single-element list `[42]`. -/
theorem compressed_iter_roundtrip_witness :
    (CompressedPostingList.new ⟨[42]⟩).iter = some (⟨[42]⟩ : PostingList).list :=
  compressed_iter_roundtrip ⟨[42]⟩ ⟨[Op.ins 42], by decide⟩

/-- C5: for every mutable posting list built through the public API, the
compressed list's `len` equals the mutable length, and for non-empty lists
`last_doc_id` is the maximum DocId of the list (it is an element and an upper
bound); for the empty list `len` is `0`. -/
theorem compressed_len_last_doc_id (p : PostingList) (h : Reachable p) :
    (CompressedPostingList.new p).len = p.list.length ∧
      (p.list ≠ [] → (CompressedPostingList.new p).last_doc_id ∈ p.list ∧
        ∀ x ∈ p.list, x ≤ (CompressedPostingList.new p).last_doc_id) := by
  have hsle : List.Pairwise (· ≤ ·) p.list :=
    (reachable_sorted h).imp (fun hh => le_of_lt hh)
  refine ⟨new_len_eq p, fun hne => ?_⟩
  rw [new_last_doc_id_eq hne]
  exact ⟨getLastD_mem hne, fun x hx => le_getLastD_of_pairwise hsle hx⟩

/-- Witness for C5 at the single-element list `[42]`. -/
theorem compressed_len_last_doc_id_witness :
    (CompressedPostingList.new ⟨[42]⟩).len = (⟨[42]⟩ : PostingList).list.length ∧
      (CompressedPostingList.new ⟨[42]⟩).last_doc_id ∈ (⟨[42]⟩ : PostingList).list :=
  ⟨(compressed_len_last_doc_id ⟨[42]⟩ ⟨[Op.ins 42], by decide⟩).1,
    ((compressed_len_last_doc_id ⟨[42]⟩ ⟨[Op.ins 42], by decide⟩).2 (by decide)).1⟩

set_option maxRecDepth 4000 in
/-- C2 counterexample: the single-element list `[42]` (buildable as
`PostingList::new(42)`) compresses at bit width 0, so the arena is empty while
`len = 1` and the directory has one chunk: "len == 0 iff arena empty" is
false. -/
theorem len_arena_equiv_cex :
    PostingList.new 42 = ⟨[42]⟩ ∧
      (CompressedPostingList.new ⟨[42]⟩).len = 1 ∧
      (CompressedPostingList.new ⟨[42]⟩).chunks.length = 1 ∧
      (CompressedPostingList.new ⟨[42]⟩).data = [] ∧
      ¬ ((CompressedPostingList.new ⟨[42]⟩).len = 0 ↔
          (CompressedPostingList.new ⟨[42]⟩).data = []) := by
  decide

/-- C2 (amended): `len == 0` iff the chunk directory is empty, and both imply
the byte arena is empty; the arena may however be empty with `len > 0` (every
block of bit width 0), so only these one-way relations hold. -/
theorem len_zero_iff_directory_empty (p : PostingList) :
    ((CompressedPostingList.new p).len = 0 ↔ (CompressedPostingList.new p).chunks = []) ∧
      ((CompressedPostingList.new p).len = 0 → (CompressedPostingList.new p).data = []) :=
  new_len_zero_iff_chunks p

/-- Witness for C2 (amended) at the empty list. -/
theorem len_zero_iff_directory_empty_witness :
    ((CompressedPostingList.new ⟨[]⟩).len = 0 ↔ (CompressedPostingList.new ⟨[]⟩).chunks = []) ∧
      (CompressedPostingList.new ⟨[]⟩).data = [] :=
  ⟨(len_zero_iff_directory_empty ⟨[]⟩).1,
    (len_zero_iff_directory_empty ⟨[]⟩).2 (by decide)⟩

/-- C6: for every chunk index of a compressed list built by
`CompressedPostingList::new`, `get_chunk_size` (offset difference to the next
chunk, or to the arena end for the last chunk) recovers exactly the byte size
the codec emitted for that block; multiplying by 8 and dividing by
`BLOCK_LEN` recovers the bit width that was passed to `compress_sorted`; and
`decompress_chunk`, which decodes with that recovered bit width, recovers the
block exactly. -/
theorem chunk_size_recovers_bit_width (p : PostingList) (i : Nat)
    (h : i < (CompressedPostingList.new p).chunks.length) :
    get_chunk_size (CompressedPostingList.new p).chunks
        (CompressedPostingList.new p).data.length i =
      some (blockSize ((blocksOf p).getD i [])) ∧
    (encBlock ((blocksOf p).getD i [])).length = blockSize ((blocksOf p).getD i []) ∧
    blockSize ((blocksOf p).getD i []) * 8 / BLOCK_LEN =
      num_bits_sorted (((blocksOf p).getD i []).headD 0) ((blocksOf p).getD i []) ∧
    (CompressedPostingList.new p).decompress_chunk i = some ((blocksOf p).getD i []) := by
  have hi : i < (blocksOf p).length := by
    rw [← new_chunks_length]
    exact h
  have hemp : ¬ p.list = [] := by
    intro hc
    rw [blocksOf_empty hc] at hi
    simp at hi
  refine ⟨?_, compress_sorted_length _ _ _, ?_, decompress_chunk_new p i hi⟩
  · rw [new_chunks_eq hemp, new_data_length hemp]
    exact get_chunk_size_buildDirectory _ i hi
  · exact compressed_block_size_recover _

set_option maxRecDepth 4000 in
/-- Witness for C6: the single chunk of the compressed form of `[42]`. -/
theorem chunk_size_recovers_bit_width_witness :
    0 < (CompressedPostingList.new ⟨[42]⟩).chunks.length ∧
      (CompressedPostingList.new ⟨[42]⟩).decompress_chunk 0 =
        some ((blocksOf ⟨[42]⟩).getD 0 []) :=
  ⟨by decide, (chunk_size_recovers_bit_width ⟨[42]⟩ 0 (by decide)).2.2.2⟩

/-- C8: `CompressedPostingList::contains` returns `some false` (it does not
fail) whenever the list is empty, the probe is below `chunks[0].initial`, or
the probe is above `last_doc_id`; and construction from the empty mutable
list returns the empty compressed list (zero chunks, zero bytes, len 0). -/
theorem out_of_range_contains_false_and_empty_new :
    (∀ (cl : CompressedPostingList) (v : Nat),
      (cl.chunks = [] ∨ v < (cl.chunks.headD ⟨0, 0⟩).initial ∨ cl.last_doc_id < v) →
        cl.contains v = some false) ∧
      CompressedPostingList.new ⟨[]⟩ = ⟨0, 0, [], []⟩ :=
  ⟨contains_out_of_range, new_empty rfl⟩

/-- Witness for C8: probing the compressed form of `[42]` above its maximum. -/
theorem out_of_range_contains_false_and_empty_new_witness :
    (CompressedPostingList.new ⟨[42]⟩).contains 43 = some false :=
  out_of_range_contains_false_and_empty_new.1 (CompressedPostingList.new ⟨[42]⟩) 43
    (Or.inr (Or.inr (by decide)))

/-- C9: compression is idempotent: building a compressed list from a mutable
list whose elements are the iteration of `compress(P)` yields a compressed
list identical, field for field, to `compress(P)`. -/
theorem compression_idempotent (p q : PostingList) (h : Reachable p)
    (h2 : (CompressedPostingList.new p).iter = some q.list) :
    CompressedPostingList.new q = CompressedPostingList.new p := by
  rw [iter_new_eq (reachable_sorted h)] at h2
  injection h2 with h2
  have hq : q = p := by
    cases q
    cases p
    simp only at h2
    rw [h2]
  rw [hq]

set_option maxRecDepth 4000 in
/-- Witness for C9 at the single-element list `[42]`. -/
theorem compression_idempotent_witness :
    CompressedPostingList.new ⟨[42]⟩ = CompressedPostingList.new ⟨[42]⟩ :=
  compression_idempotent ⟨[42]⟩ ⟨[42]⟩ ⟨[Op.ins 42], by decide⟩ (by decide)

/-- C10: neither `CompressedPostingList::contains` nor the visitor's
`contains` can panic on a list built by `CompressedPostingList::new` from any
mutable posting list: for every probe value and every (even non-monotonic)
probe sequence, the embedded computations — in which `none` models a panic —
return `some`. -/
theorem contains_and_visitor_never_panic (p : PostingList) (v : Nat)
    (probes : List Nat) :
    ((CompressedPostingList.new p).contains v).isSome = true ∧
      (runVisitor (CompressedPostingList.new p) probes).isSome = true :=
  ⟨contains_new_isSome p v, runVisitor_new_isSome p probes⟩

set_option maxRecDepth 8000 in
/-- C1 (code_bug): `find_chunk` returns the binary-search index relative to
the suffix `chunks[start..]` without adding `start` back, so a fresh visitor
over the compressed form of `{0, …, 256}` (three chunks, built through the
public API) fed the strictly increasing probes `130, 256` answers
`true, false`, while the mutable list contains both probes: the visitor
contradicts `P.contains` pointwise equality, and the search starting at the
cached chunk index selects a different candidate chunk than a search starting
at index 0 would. -/
theorem visitor_find_chunk_suffix_bug :
    runVisitor (CompressedPostingList.new ⟨List.range 257⟩) [130, 256] =
        some [true, false] ∧
      (⟨List.range 257⟩ : PostingList).contains 130 = true ∧
      (⟨List.range 257⟩ : PostingList).contains 256 = true ∧
      Reachable ⟨List.range 257⟩ := by
  refine ⟨by decide, ?_, ?_, reachable_of_sorted (List.pairwise_lt_range _)⟩
  · exact (bsOk_iff_mem ((List.pairwise_lt_range _).imp (fun h => le_of_lt h))).mpr
      (List.mem_range.mpr (by omega))
  · exact (bsOk_iff_mem ((List.pairwise_lt_range _).imp (fun h => le_of_lt h))).mpr
      (List.mem_range.mpr (by omega))
